import Mathlib

/-!
# A verification of the TSM1 file-format core

Shallow embedding of the TSM writer/reader, the direct and indirect index
implementations, and the block framing from the repository's `tsm1` package
(`tsm.go` and the vendored `encoding.go`).  Byte strings are modelled as
`List Nat` with every well-formed byte below 256; Go's fixed-width integers
become `Nat`/`Int` with explicit two's-complement reinterpretation where the
code converts between `int64` and `uint64`.
-/

set_option maxHeartbeats 1000000
set_option maxRecDepth 100000

namespace Tsm1

/-- Big-endian encoding of `v` into `k` bytes, as `binary.BigEndian.PutUint16/32/64`
produce (most significant byte first; the value is reduced mod `256 ^ k`). -/
def beBytes (k : Nat) (v : Nat) : List Nat :=
  match k with
  | 0 => []
  | k + 1 => beBytes k (v / 256) ++ [v % 256]

/-- Big-endian accumulation of a byte list into a `Nat`, as
`binary.BigEndian.Uint16/32/64` compute on a buffer of the right width. -/
def beFold (l : List Nat) : Nat := l.foldl (fun acc b => acc * 256 + b) 0

/-- `u16tob` from the source: two big-endian bytes. -/
def u16tob (v : Nat) : List Nat := beBytes 2 v

/-- `u32tob` from the source: four big-endian bytes. -/
def u32tob (v : Nat) : List Nat := beBytes 4 v

/-- `u64tob` from the source: eight big-endian bytes. -/
def u64tob (v : Nat) : List Nat := beBytes 8 v

/-- `btou16` from the source: decode the first two bytes big-endian.  (Go
panics when fewer than two bytes are available; callers below only apply it
inside buffers known to be long enough, and `take` merely truncates there.) -/
def btou16 (b : List Nat) : Nat := beFold (b.take 2)

/-- `btou32` from the source: decode the first four bytes big-endian. -/
def btou32 (b : List Nat) : Nat := beFold (b.take 4)

/-- `btou64` from the source: decode the first eight bytes big-endian. -/
def btou64 (b : List Nat) : Nat := beFold (b.take 8)

/-- Go's `int64(u)` on a `uint64` value: two's-complement reinterpretation. -/
def toInt64 (n : Nat) : Int := if n < 2 ^ 63 then (n : Int) else (n : Int) - 2 ^ 64

/-- Go's `uint64(x)` on an `int64` value: two's-complement reduction. -/
def toUint64 (x : Int) : Nat := (x % (2 ^ 64 : Int)).toNat

/-- `binary.PutUvarint`: little-endian base-128 with continuation bits. -/
def putUvarint (x : Nat) : List Nat :=
  if h : x < 128 then [x]
  else (x % 128 + 128) :: putUvarint (x / 128)
termination_by x
decreasing_by exact Nat.div_lt_self (by omega) (by omega)

/-- `binary.Uvarint`: decode a little-endian base-128 value, returning the
value and the number of bytes consumed.  (The 10-byte overflow guard of the
Go original is never reached by the small lengths this format produces.) -/
def readUvarint : List Nat → Nat × Nat
  | [] => (0, 0)
  | b :: rest =>
    if b < 128 then (b, 1)
    else
      let p := readUvarint rest
      (b % 128 + p.1 * 128, p.2 + 1)

/-- One bit step of the reflected CRC-32 with the IEEE polynomial. -/
def crc32Step (c : Nat) : Nat :=
  if c % 2 == 1 then (c / 2) ^^^ 0xEDB88320 else c / 2

/-- Fold one input byte into the running CRC. -/
def crc32Byte (c : Nat) (b : Nat) : Nat :=
  crc32Step (crc32Step (crc32Step (crc32Step
    (crc32Step (crc32Step (crc32Step (crc32Step (c ^^^ b))))))))

/-- `crc32.ChecksumIEEE` from Go's standard library: reflected CRC-32,
initial value and final xor `0xFFFFFFFF`. -/
def crc32 (data : List Nat) : Nat :=
  0xFFFFFFFF ^^^ data.foldl crc32Byte 0xFFFFFFFF

/-- Go `string` comparison on byte strings: lexicographic over raw bytes. -/
def keyLt : List Nat → List Nat → Bool
  | [], [] => false
  | [], _ :: _ => true
  | _ :: _, [] => false
  | a :: as, b :: bs => if a < b then true else if b < a then false else keyLt as bs

/-- One step of the gap-6 Shell pass: `prev` holds the elements already
visited, in reverse, so `prev[5]?` is the element six positions back.
When the incoming element is `Less` than that element the two are swapped,
exactly as in `sort.go`. -/
def shellStep (less : α → α → Bool) (prev : List α) (x : α) : List α :=
  match prev[5]? with
  | some y => if less x y then y :: prev.set 5 x else x :: prev
  | none => x :: prev

/-- The gap-6 Shell pass, accumulating the processed prefix in reverse. -/
def shellPassAux (less : α → α → Bool) (prev : List α) : List α → List α
  | [] => prev.reverse
  | x :: rest => shellPassAux less (shellStep less prev x) rest

/-- The gap-6 Shell pass over a whole slice. -/
def shellPass (less : α → α → Bool) (l : List α) : List α := shellPassAux less [] l

/-- Insert `x` into `l` before the first element it is strictly `Less` than;
this is where Go's adjacent-swap insertion sort deposits `a[i]`. -/
def insertOrdered (less : α → α → Bool) (x : α) : List α → List α
  | [] => [x]
  | y :: ys => if less x y then x :: y :: ys else y :: insertOrdered less x ys

/-- Go's `insertionSort`: elements are taken left to right and each is moved
left past exactly the elements it is strictly `Less` than. -/
def insertionSort (less : α → α → Bool) (l : List α) : List α :=
  l.foldl (fun acc x => insertOrdered less x acc) []

/-- `sort.Sort` on a small slice: the Shell pass, then the insertion sort. -/
def goSortBy (less : α → α → Bool) (l : List α) : List α :=
  insertionSort less (shellPass less l)

/-- Sortedness with respect to a strict `Less`: no later element is `Less`
than an earlier one. -/
def SortedBy (less : α → α → Bool) (l : List α) : Prop :=
  l.Pairwise (fun a b => less b a = false)

/-! ## Index entries and the direct index -/

/-- Go errors and panics surfaced by the embedded operations. -/
inductive GoErr where
  | errMsg (msg : String)
  | goPanic (msg : String)
deriving Repr, DecidableEq

/-- Equality of `Except` results is decidable componentwise (needed to
evaluate the embedded operations on concrete inputs). -/
instance {ε α : Type} [DecidableEq ε] [DecidableEq α] : DecidableEq (Except ε α) := by
  intro a b
  cases a <;> cases b
  case error.error e1 e2 =>
    exact match decEq e1 e2 with
      | isTrue h => isTrue (by rw [h])
      | isFalse h => isFalse (by intro hh; cases hh; exact h rfl)
  case error.ok e1 a2 => exact isFalse (by intro hh; cases hh)
  case ok.error a1 e2 => exact isFalse (by intro hh; cases hh)
  case ok.ok a1 a2 =>
    exact match decEq a1 a2 with
      | isTrue h => isTrue (by rw [h])
      | isFalse h => isFalse (by intro hh; cases hh; exact h rfl)

/-- `IndexEntry`: the index information for one block.  `MinTime`/`MaxTime`
hold the `UnixNano` value of the corresponding `time.Time` (the source only
builds times with `time.Unix(0, n)`, so the nanosecond value determines the
instant); `Offset` is the `int64` file position and `Size` the `uint32`
on-disk length. -/
structure IndexEntry where
  MinTime : Int
  MaxTime : Int
  Offset : Int
  Size : Nat
deriving Repr, DecidableEq

/-- `IndexEntry.Contains`, with Go's operator precedence: `&&` binds tighter
than `||`, so the source line parses as
`Equal(min,t) ∨ (Before(min,t) ∧ Equal(max,t)) ∨ After(max,t)`. -/
def IndexEntry.Contains (e : IndexEntry) (t : Int) : Bool :=
  e.MinTime == t || (decide (e.MinTime < t) && e.MaxTime == t) || decide (e.MaxTime > t)

/-- `indexEntries.Less` from the source: strictly by `MinTime`. -/
def indexEntryLess (a b : IndexEntry) : Bool := decide (a.MinTime < b.MinTime)

/-- `sort.Sort` applied to an entry slice with `indexEntries.Less`. -/
def goSortEntries (l : List IndexEntry) : List IndexEntry := goSortBy indexEntryLess l

/-- `sort.Strings` applied to a key list.  The keys handed to it come from a
Go map and are therefore distinct, and on distinct keys every correct sort
returns the same (unique) ordered permutation, so running the same
small-slice algorithm is extensionally `sort.Strings` here. -/
def sortStrings (ks : List (List Nat)) : List (List Nat) := goSortBy keyLt ks

/-- The 28 bytes `MarshalBinary` appends for one entry:
`u64 minT ‖ u64 maxT ‖ u64 offset ‖ u32 size`, each value passed through
Go's unsigned conversion. -/
def encodeEntry (e : IndexEntry) : List Nat :=
  u64tob (toUint64 e.MinTime) ++ u64tob (toUint64 e.MaxTime) ++
    u64tob (toUint64 e.Offset) ++ u32tob e.Size

/-- `IndexEntry.UnmarshalBinary`: decode a 28-byte buffer (any other length
is rejected with an error; Go would already panic slicing a shorter
buffer). -/
def IndexEntry.UnmarshalBinary (b : List Nat) : Except GoErr IndexEntry :=
  if b.length ≠ 28 then .error (.errMsg "unmarshalBinary: short buf") else
    .ok { MinTime := toInt64 (btou64 b)
          MaxTime := toInt64 (btou64 (b.drop 8))
          Offset := toInt64 (btou64 (b.drop 16))
          Size := btou32 (b.drop 24) }

/-- `directIndex`: Go's `map[string]indexEntries` modelled as an association
list (a Go map cannot hold duplicate keys; its nondeterministic iteration
order is immaterial because `MarshalBinary` sorts the keys before use). -/
structure directIndex where
  blocks : List (List Nat × List IndexEntry)
deriving Repr, DecidableEq

/-- `NewDirectIndex`. -/
def NewDirectIndex : directIndex := ⟨[]⟩

/-- Association-list update mirroring
`d.blocks[key] = append(d.blocks[key], entries...)`. -/
def addToBlocks : List (List Nat × List IndexEntry) → List Nat → List IndexEntry →
    List (List Nat × List IndexEntry)
  | [], key, es => [(key, es)]
  | (k, l) :: rest, key, es =>
    if k = key then (k, l ++ es) :: rest else (k, l) :: addToBlocks rest key es

/-- `directIndex.Add`: append one new entry to the key's slice. -/
def directIndex.Add (d : directIndex) (key : List Nat) (minTime maxTime : Int)
    (offset : Int) (size : Nat) : directIndex :=
  ⟨addToBlocks d.blocks key [⟨minTime, maxTime, offset, size⟩]⟩

/-- `directIndex.Entries`: the key's slice, nil when the key is absent. -/
def directIndex.Entries (d : directIndex) (key : List Nat) : List IndexEntry :=
  ((d.blocks.find? (fun p => p.1 == key)).map Prod.snd).getD []

/-- `directIndex.Entry`: linear scan for the first entry containing `t`. -/
def directIndex.Entry (d : directIndex) (key : List Nat) (t : Int) : Option IndexEntry :=
  (d.Entries key).find? (fun e => e.Contains t)

/-- `directIndex.addEntries`. -/
def directIndex.addEntries (d : directIndex) (key : List Nat)
    (entries : List IndexEntry) : directIndex :=
  ⟨addToBlocks d.blocks key entries⟩

/-- The keys currently in the map. -/
def directIndex.keys (d : directIndex) : List (List Nat) := d.blocks.map Prod.fst

/-- One key record of the serialized index:
`u16 keyLen ‖ key ‖ u16 entryCount ‖ entryCount × 28-byte entries`. -/
def encodeRecord (key : List Nat) (entries : List IndexEntry) : List Nat :=
  u16tob key.length ++ key ++ u16tob entries.length ++ (entries.map encodeEntry).flatten

/-- The records `MarshalBinary` emits: keys in `sort.Strings` order, each
key's entries sorted by `sort.Sort` with `indexEntries.Less`. -/
def directIndex.marshalRecords (d : directIndex) : List (List Nat × List IndexEntry) :=
  (sortStrings d.keys).map (fun k => (k, goSortEntries (d.Entries k)))

/-- `directIndex.MarshalBinary` — the returned byte slice (the error result
is always nil in the source). -/
def directIndex.MarshalBinary (d : directIndex) : List Nat :=
  (d.marshalRecords.map (fun p => encodeRecord p.1 p.2)).flatten

/-- The side effect of `MarshalBinary` on the shared entry slices:
`sort.Sort(entries)` reorders each key's slice in place, and the map keeps
referencing the sorted slices afterwards. -/
def directIndex.marshalState (d : directIndex) : directIndex :=
  ⟨d.blocks.map (fun p => (p.1, goSortEntries p.2))⟩

/-- `readKey` (identical in `directIndex` and `indirectIndex`): `u16`
length, then that many key bytes; returns the advance and the key.  (The Go
version's error result is always nil.) -/
def readKey (b : List Nat) : Nat × List Nat :=
  let key := (b.drop 2).take (btou16 b)
  (2 + key.length, key)

/-- The loop of `readEntries`: decode `count` consecutive 28-byte entries
starting two bytes in. -/
def readEntriesAux (b : List Nat) : Nat → Nat → Except GoErr (List IndexEntry)
  | 0, _ => .ok []
  | count + 1, i => do
    let e ← IndexEntry.UnmarshalBinary ((b.drop (i * 28 + 2)).take 28)
    let rest ← readEntriesAux b count (i + 1)
    pure (e :: rest)

/-- `readEntries` (identical in `directIndex` and `indirectIndex`): `u16`
count, then the entries; returns the advance and the entries. -/
def readEntries (b : List Nat) : Except GoErr (Nat × List IndexEntry) := do
  let count := btou16 b
  let entries ← readEntriesAux b count 0
  pure (2 + 28 * count, entries)

/-- The cursor loop of `directIndex.UnmarshalBinary`, consuming the buffer
one key record at a time. -/
def unmarshalLoop (d : directIndex) (b : List Nat) : Except GoErr directIndex :=
  if hb : b = [] then .ok d
  else
    match readEntries (b.drop (readKey b).1) with
    | .error e => .error e
    | .ok p => unmarshalLoop (d.addEntries (readKey b).2 p.2) (b.drop ((readKey b).1 + p.1))
termination_by b.length
decreasing_by
  have hbl : 0 < b.length := List.length_pos.mpr hb
  have hrk : 2 ≤ (readKey b).1 := by simp [readKey]
  simp only [List.length_drop]
  omega

/-- `directIndex.UnmarshalBinary`. -/
def directIndex.UnmarshalBinary (d : directIndex) (b : List Nat) :
    Except GoErr directIndex :=
  unmarshalLoop d b

/-! ## The indirect index -/

/-- `indirectIndex`: the raw serialized index bytes plus the byte positions
of each key record (`[]int32` in the source; positions are kept as `Nat`,
well-formed indexes staying far below `2 ^ 31`). -/
structure indirectIndex where
  b : List Nat
  offsets : List Nat
deriving Repr, DecidableEq

/-- `NewIndirectIndex`. -/
def NewIndirectIndex : indirectIndex := ⟨[], []⟩

/-- `indirectIndex.Add` panics — the view is read-only. -/
def indirectIndex.Add (_d : indirectIndex) : Except GoErr indirectIndex :=
  .error (.goPanic "unsupported operation")

/-- The offset scan of `indirectIndex.UnmarshalBinary`: push the position of
each key record, then skip `2 + keyLen + 2 + 28 · count` bytes. -/
def scanOffsets (b : List Nat) (i : Nat) : List Nat :=
  if h : i < b.length then
    i :: scanOffsets b
      (i + 2 + btou16 (b.drop i) + 2 + btou16 (b.drop (i + 2 + btou16 (b.drop i))) * 28)
  else []
termination_by b.length - i
decreasing_by omega

/-- `indirectIndex.UnmarshalBinary` (its error result is always nil). -/
def indirectIndex.UnmarshalBinary (b : List Nat) : indirectIndex :=
  ⟨b, scanOffsets b 0⟩

/-- `indirectIndex.MarshalBinary`: the backing bytes, verbatim. -/
def indirectIndex.MarshalBinary (d : indirectIndex) : List Nat := d.b

/-- `sort.Search` from Go's standard library: binary search for the least
index in `[0, n)` satisfying a predicate assumed monotone, returning `n`
when none does. -/
def searchLoop (f : Nat → Bool) (i j : Nat) : Nat :=
  if h : i < j then
    if f (i + (j - i) / 2) then searchLoop f i (i + (j - i) / 2)
    else searchLoop f (i + (j - i) / 2 + 1) j
  else i
termination_by j - i
decreasing_by
  · omega
  · omega

/-- `sort.Search` over `[0, n)`. -/
def sortSearch (n : Nat) (f : Nat → Bool) : Nat := searchLoop f 0 n

/-- The closure passed to `sort.Search`: materialize the key at
`offsets[i]` and compare it with the target (`key == k || k > key`). -/
def probeFun (b offsets key : List Nat) : Nat → Bool :=
  fun i =>
    key == (b.drop (offsets.getD i 0 + 2)).take (btou16 (b.drop (offsets.getD i 0))) ||
    keyLt key ((b.drop (offsets.getD i 0 + 2)).take (btou16 (b.drop (offsets.getD i 0))))

def indirectIndex.searchKey (d : indirectIndex) (key : List Nat) : Nat :=
  sortSearch d.offsets.length (probeFun d.b d.offsets key)

/-- `indirectIndex.Entries`: binary-search the offsets, check the resolved
key, decode that record's entry list.  The Go version panics (rather than
returning an error) on malformed record bytes; the panic is surfaced in the
`Except`. -/
def indirectIndex.Entries (d : indirectIndex) (key : List Nat) :
    Except GoErr (List IndexEntry) :=
  if d.searchKey key < d.offsets.length then
    if (readKey (d.b.drop (d.offsets.getD (d.searchKey key) 0))).2 ≠ key then .ok []
    else
      match readEntries (d.b.drop (d.offsets.getD (d.searchKey key) 0 +
          (readKey (d.b.drop (d.offsets.getD (d.searchKey key) 0))).1)) with
      | .error _ => .error (.goPanic "error reading entries")
      | .ok p => .ok p.2
  else .ok []

/-- `indirectIndex.Entry`: linear scan of the resolved entries. -/
def indirectIndex.Entry (d : indirectIndex) (key : List Nat) (t : Int) :
    Except GoErr (Option IndexEntry) :=
  (d.Entries key).map (fun es => es.find? (fun e => e.Contains t))

/-! ## Values and the block codec

The four scalar variants of the source (`float64`, `int64`, `bool`,
`string`) are collapsed into a single scalar: block payloads are opaque to
the file format, every write uses one homogeneous slice, and nothing in the
format inspects the scalar beyond encoding it.  The source fixes
`BlockFloat64 = 0`; the collapsed type reuses that tag. -/

/-- A `(timestamp, value)` pair; `time` is the `UnixNano` instant. -/
structure Value where
  time : Int
  value : Int
deriving Repr, DecidableEq

/-- Modelled from the spec: the external timestamp codec of §6.3
(`NewTimeEncoder`; its sources are not part of this repository).  The spec
requires only an opaque byte encoding inverted by its decoder; fixed
eight-byte big-endian words satisfy that contract. -/
def encodeTimestamps (ts : List Int) : List Nat :=
  (ts.map (fun t => u64tob (toUint64 t))).flatten

/-- Modelled from the spec: the external value codec of §6.3
(`NewFloatEncoder` and friends; not part of this repository), instantiated
with the same fixed-width words. -/
def encodeScalars (vs : List Int) : List Nat :=
  (vs.map (fun v => u64tob (toUint64 v))).flatten

/-- Modelled from the spec: the decoder of the fixed-width codec.  It
consumes eight-byte words greedily; the timestamp sub-block contains an
exact multiple of eight bytes, and the value decoder's surplus (the buffer
handed to it may reach past the block) is discarded by the paired `Next()`
loop below. -/
def decodeWords (b : List Nat) : List Int :=
  if h : 8 ≤ b.length then toInt64 (btou64 b) :: decodeWords (b.drop 8) else []
termination_by b.length
decreasing_by simp only [List.length_drop]; omega

/-- `packBlockHeader` (`encoding.go`): eight-byte first timestamp, then the
block-type byte. -/
def packBlockHeader (firstTime : Int) (blockType : Nat) : List Nat :=
  u64tob (toUint64 firstTime) ++ [blockType]

/-- `packBlock` (`encoding.go`): varuint length of the timestamp sub-block,
the timestamp bytes, then the value bytes. -/
def packBlock (ts values : List Nat) : List Nat := putUvarint ts.length ++ ts ++ values

/-- The collapsed block type tag (`BlockFloat64 = 0`). -/
def BlockScalar : Nat := 0

/-- `Values.Encode` and the per-type encode path of `encoding.go`: an empty
slice panics (`"unable to encode block type"`); otherwise the block is
`packBlockHeader ‖ packBlock`. -/
def ValuesEncode (values : List Value) : Except GoErr (List Nat) :=
  match values with
  | [] => .error (.goPanic "unable to encode block type")
  | v :: _ =>
    .ok (packBlockHeader v.time BlockScalar ++
      packBlock (encodeTimestamps (values.map (fun x => x.time)))
        (encodeScalars (values.map (fun x => x.value))))

/-- `unpackBlock`: split the post-header payload into timestamp and value
bytes using the leading varuint. -/
def unpackBlock (buf : List Nat) : List Nat × List Nat :=
  ((buf.drop (readUvarint buf).2).take (readUvarint buf).1,
   buf.drop ((readUvarint buf).2 + (readUvarint buf).1))

/-- `DecodeBlock` (`encoding.go`) under the collapsed scalar type: a buffer
no longer than the 9-byte header panics, an unknown type tag panics, and
otherwise decoded timestamps are zipped with decoded scalars — the source's
paired `Next()` loop stops with the shorter stream. -/
def DecodeBlock (block : List Nat) : Except GoErr (List Value) :=
  if block.length ≤ 9 then .error (.goPanic "decode of short block")
  else if block.getD 8 0 ≠ BlockScalar then .error (.goPanic "unknown block type")
  else
    .ok (List.zipWith Value.mk (decodeWords (unpackBlock (block.drop 9)).1)
      (decodeWords (unpackBlock (block.drop 9)).2))

/-! ## The TSM writer -/

/-- `MagicNumber`. -/
def MagicNumber : Nat := 0x16D116D1

/-- `Version`. -/
def Version : Nat := 1

/-- `tsmWriter`: the output sink accumulated as bytes (a `bytes.Buffer`-like
sink whose writes never fail), the in-memory index, and the byte position
`n`. -/
structure tsmWriter where
  out : List Nat
  index : directIndex
  n : Nat
deriving Repr, DecidableEq

/-- `NewTSMWriter`: emit the five header bytes; `n` starts at 5. -/
def NewTSMWriter : tsmWriter :=
  { out := u32tob MagicNumber ++ [Version], index := NewDirectIndex, n := 5 }

/-- `tsmWriter.Write`: encode the block, prefix its CRC-32, append both, and
record the index entry `(values[0].Time, values[last].Time, n, uint32(len))`.
The `getD` defaults are unreachable: an empty slice has already panicked
inside `Values.Encode`. -/
def tsmWriter.Write (t : tsmWriter) (key : List Nat) (values : List Value) :
    Except GoErr tsmWriter := do
  let block ← ValuesEncode values
  let written := u32tob (crc32 block) ++ block
  let minT := ((values.head?).map (fun v => v.time)).getD 0
  let maxT := ((values.getLast?).map (fun v => v.time)).getD 0
  pure { out := t.out ++ written
         index := t.index.Add key minT maxT (t.n : Int) (written.length % 2 ^ 32)
         n := t.n + written.length }

/-- `tsmWriter.Close`: marshal the index (which sorts the shared entry
slices in place), then append the index bytes and the eight-byte index
position.  The source keeps no closed flag and does not advance `n`. -/
def tsmWriter.Close (t : tsmWriter) : tsmWriter :=
  { t with out := t.out ++ t.index.MarshalBinary ++ u64tob t.n
           index := t.index.marshalState }

/-! ## The TSM reader -/

/-- `tsmReader`: the byte source, the index span, and the decoded index. -/
structure tsmReader where
  r : List Nat
  indexStart : Nat
  indexEnd : Nat
  index : directIndex
deriving Repr, DecidableEq

/-- `tsmReader.init` (reached through `NewTSMReader`): read the footer, seek
to the index, decode it into a direct index.  The failure points mirror the
source: a sub-8-byte file fails the footer seek; an index pointer at or
above `2 ^ 63` is a negative `int64` and fails the index seek; a pointer
past `indexEnd` makes `make([]byte, indexEnd-indexStart)` panic on a
negative size; an index-decode error propagates.  No byte of the header is
ever inspected. -/
def tsmReaderInit (r : List Nat) : Except GoErr tsmReader :=
  if r.length < 8 then .error (.errMsg "init: failed to seek") else
  if btou64 (r.drop (r.length - 8)) ≥ 2 ^ 63 then
    .error (.errMsg "init: failed to seek to index") else
  if r.length - 8 < btou64 (r.drop (r.length - 8)) then
    .error (.goPanic "makeslice: len out of range") else
  match directIndex.UnmarshalBinary NewDirectIndex
      ((r.drop (btou64 (r.drop (r.length - 8)))).take
        ((r.length - 8) - btou64 (r.drop (r.length - 8)))) with
  | .error _ => .error (.errMsg "init: unmarshal error")
  | .ok idx => .ok ⟨r, btou64 (r.drop (r.length - 8)), r.length - 8, idx⟩

/-- `NewTSMReader`. -/
def NewTSMReader (r : List Nat) : Except GoErr tsmReader := tsmReaderInit r

/-- One block fetch shared by `Read` and `ReadAll`: seek to the entry's
offset, read up to `max(16384, entry.Size)` bytes (Go's `Read` returns the
bytes remaining, up to the buffer size), drop the four CRC bytes, decode
the rest.  The stored checksum is never verified (`//TODO: Validate
checksum` in the source). -/
def fetchBlock (r : List Nat) (block : IndexEntry) : Except GoErr (List Value) :=
  if block.Offset < 0 then .error (.errMsg "seek: negative position")
  else if r.length ≤ block.Offset.toNat then .error (.errMsg "EOF")
  else
    DecodeBlock (((r.drop block.Offset.toNat).take
      (min (max (16 * 1024) block.Size) (r.length - block.Offset.toNat))).drop 4)

/-- `tsmReader.Read`: resolve the entry containing the timestamp (`nil`
result when none does) and fetch that one block. -/
def tsmReader.Read (t : tsmReader) (key : List Nat) (timestamp : Int) :
    Except GoErr (List Value) :=
  match t.index.Entry key timestamp with
  | none => .ok []
  | some block => fetchBlock t.r block

/-- The loop of `ReadAll`, concatenating each block's decoded values. -/
def readAllLoop (r : List Nat) : List IndexEntry → Except GoErr (List Value)
  | [] => .ok []
  | block :: rest => do
    let vs ← fetchBlock r block
    let more ← readAllLoop r rest
    pure (vs ++ more)

/-- `tsmReader.ReadAll`: fetch and decode every block of the key, in index
order. -/
def tsmReader.ReadAll (t : tsmReader) (key : List Nat) : Except GoErr (List Value) :=
  readAllLoop t.r (t.index.Entries key)

/-- The ranges Go's field types force on every real `IndexEntry`
(`MinTime`/`MaxTime`/`Offset` are `int64`, `Size` is `uint32`). -/
def IndexEntry.InRange (e : IndexEntry) : Prop :=
  -(2 ^ 63) ≤ e.MinTime ∧ e.MinTime < 2 ^ 63 ∧ -(2 ^ 63) ≤ e.MaxTime ∧ e.MaxTime < 2 ^ 63 ∧
    -(2 ^ 63) ≤ e.Offset ∧ e.Offset < 2 ^ 63 ∧ e.Size < 2 ^ 32

instance (e : IndexEntry) : Decidable e.InRange := by
  unfold IndexEntry.InRange
  infer_instance

/-- Well-formedness of one serialized key record: the `u16` length fields
fit, the key is a byte string, the entry fields fit their wire widths. -/
def RecWF (p : List Nat × List IndexEntry) : Prop :=
  p.1.length < 2 ^ 16 ∧ (∀ c ∈ p.1, c < 256) ∧ p.2.length < 2 ^ 16 ∧ ∀ e ∈ p.2, e.InRange

instance (p : List Nat × List IndexEntry) : Decidable (RecWF p) := by
  unfold RecWF
  infer_instance

/-- A whole serialized index: the concatenation of its key records. -/
def encodeIndex (rs : List (List Nat × List IndexEntry)) : List Nat :=
  (rs.map (fun p => encodeRecord p.1 p.2)).flatten

/-- Well-formedness of a whole direct index: distinct keys (automatic for a
Go map) and wire-width bounds on every record. -/
def DirWF (d : directIndex) : Prop :=
  (d.blocks.map Prod.fst).Nodup ∧ ∀ p ∈ d.blocks, RecWF p

/-! ## The indirect index over a well-formed serialized buffer -/

/-- The starting byte positions of the records of a serialized index. -/
def offsetsOf : List (List Nat × List IndexEntry) → List Nat
  | [] => []
  | p :: rs => 0 :: (offsetsOf rs).map (fun o => o + (encodeRecord p.1 p.2).length)

/-- The record of `rs` at position `i` (with a junk default). -/
def recAt (rs : List (List Nat × List IndexEntry)) (i : Nat) : List Nat × List IndexEntry :=
  rs.getD i ([], [])

/-- Keys strictly ascending, as the canonical serialized form has them. -/
def KeysSorted (rs : List (List Nat × List IndexEntry)) : Prop :=
  (rs.map Prod.fst).Pairwise (fun a b => keyLt a b = true)

/-! ## Round-trip of the block codec -/

/-- An `int64` range bound for timestamps and scalars. -/
def In64 (x : Int) : Prop := -(2 ^ 63) ≤ x ∧ x < 2 ^ 63

instance (x : Int) : Decidable (In64 x) := by
  unfold In64
  infer_instance

/-- The encoded block of a nonempty value slice. -/
def blockBytes (vs : List Value) : List Nat :=
  packBlockHeader ((vs.head?.map (fun v => v.time)).getD 0) BlockScalar ++
    packBlock (encodeTimestamps (vs.map (fun x => x.time)))
      (encodeScalars (vs.map (fun x => x.value)))

/-! ## The writer run and the expected file layout -/

/-- The bytes `Write` appends for one block: CRC-32 prefix, then the block. -/
def diskBlock (vs : List Value) : List Nat :=
  u32tob (crc32 (blockBytes vs)) ++ blockBytes vs

/-- The whole block section for a write sequence. -/
def expBlocks (ws : List (List Nat × List Value)) : List Nat :=
  (ws.map (fun p => diskBlock p.2)).flatten

/-- `values[0].Time()` (with an unreachable default for the empty slice). -/
def headTime (vs : List Value) : Int := ((vs.head?).map (fun v => v.time)).getD 0

/-- `values[len(values)-1].Time()`. -/
def lastTime (vs : List Value) : Int := ((vs.getLast?).map (fun v => v.time)).getD 0

/-- The index entry `Write` records for a block at `offset`. -/
def entryFor (vs : List Value) (offset : Nat) : IndexEntry :=
  ⟨headTime vs, lastTime vs, (offset : Int), (diskBlock vs).length % 2 ^ 32⟩

/-- One successful `Write`, as a pure state transformer. -/
def writeStep (w : tsmWriter) (p : List Nat × List Value) : tsmWriter :=
  { out := w.out ++ diskBlock p.2
    index := w.index.Add p.1 (headTime p.2) (lastTime p.2) (w.n : Int)
      ((diskBlock p.2).length % 2 ^ 32)
    n := w.n + (diskBlock p.2).length }

/-- A whole write session against a fresh writer. -/
def runWrites (ws : List (List Nat × List Value)) : Except GoErr tsmWriter :=
  ws.foldlM (fun w p => w.Write p.1 p.2) NewTSMWriter

/-- The values written under `k`, concatenated in write order. -/
def valuesFor (ws : List (List Nat × List Value)) (k : List Nat) : List Value :=
  match ws with
  | [] => []
  | (key, vs) :: rest => if key = k then vs ++ valuesFor rest k else valuesFor rest k

/-- The index entries accumulated for `k` when the block section starts at
byte position `pos`. -/
def expEntries (ws : List (List Nat × List Value)) (pos : Nat) (k : List Nat) :
    List IndexEntry :=
  match ws with
  | [] => []
  | (key, vs) :: rest =>
    if key = k then entryFor vs pos :: expEntries rest (pos + (diskBlock vs).length) k
    else expEntries rest (pos + (diskBlock vs).length) k

/-- The first timestamps of the blocks written under `k`, in write order. -/
def keyTimes (ws : List (List Nat × List Value)) (k : List Nat) : List Int :=
  match ws with
  | [] => []
  | (key, vs) :: rest => if key = k then headTime vs :: keyTimes rest k else keyTimes rest k

/-- The writer contract of the spec (§4.5/§8): nonempty homogeneous blocks,
`int64` timestamps and scalars, blocks and keys within their wire widths,
fewer than `2 ^ 16` writes, a file short enough for the footer pointer, and
per-key strictly ascending block start times. -/
def WContract (ws : List (List Nat × List Value)) : Prop :=
  (∀ p ∈ ws, p.2 ≠ [] ∧ (∀ v ∈ p.2, In64 v.time ∧ In64 v.value) ∧
    (diskBlock p.2).length < 2 ^ 32 ∧ p.1.length < 2 ^ 16 ∧ (∀ c ∈ p.1, c < 256)) ∧
  ws.length < 2 ^ 16 ∧ 5 + (expBlocks ws).length < 2 ^ 63 ∧
  ∀ k ∈ ws.map Prod.fst, (keyTimes ws k).Pairwise (fun a b => a < b)

instance (ws : List (List Nat × List Value)) : Decidable (WContract ws) := by
  unfold WContract
  infer_instance

/-- `MarshalBinary` paired with its in-place sorting side effect: the Go
method returns the bytes while `sort.Sort` has reordered the shared entry
slices that the map keeps referencing. -/
def directIndex.MarshalBinaryS (d : directIndex) : List Nat × directIndex :=
  (d.MarshalBinary, d.marshalState)

/-- Well-formedness of a serialized index buffer, described by the record
list it encodes: wire-width bounds per record, strictly ascending keys, and
a total size within the `int32` offsets of the indirect index. -/
def IdxWF (rs : List (List Nat × List IndexEntry)) : Prop :=
  (∀ p ∈ rs, RecWF p) ∧ KeysSorted rs ∧ (encodeIndex rs).length < 2 ^ 31

instance (rs : List (List Nat × List IndexEntry)) : Decidable (IdxWF rs) := by
  unfold IdxWF KeysSorted
  infer_instance

instance (less : α → α → Bool) (l : List α) : Decidable (SortedBy less l) := by
  unfold SortedBy
  infer_instance

instance (d : directIndex) : Decidable (DirWF d) := by
  unfold DirWF
  infer_instance

/-- Unwrap a writer result (the default is unreachable in the uses below). -/
def unwrapWriter (x : Except GoErr tsmWriter) : tsmWriter :=
  match x with
  | .ok w => w
  | .error _ => NewTSMWriter

/-- Unwrap a reader result (the default is unreachable in the uses below). -/
def unwrapReader (x : Except GoErr tsmReader) : tsmReader :=
  match x with
  | .ok r => r
  | .error _ => ⟨[], 0, 0, NewDirectIndex⟩

/-- A three-write session: `cpu` twice around a `mem` write. -/
def exWrites : List (List Nat × List Value) :=
  [([99, 112, 117], [⟨0, 1⟩]), ([109, 101, 109], [⟨5, 2⟩, ⟨7, 3⟩]), ([99, 112, 117], [⟨9, 4⟩])]

/-- A complete one-block file produced by the writer (`cpu`, value 1 at 0). -/
def exFile : List Nat := ((unwrapWriter (runWrites [([99, 112, 117], [⟨0, 1⟩])])).Close).out

/-- The same file with one bit of its stored block CRC flipped (byte 5 is
the first CRC byte of the single block). -/
def exFileBadCrc : List Nat := exFile.set 5 ((exFile.getD 5 0 + 1) % 256)

/-- The same file with a corrupted magic number (first byte zeroed). -/
def exFileBadMagic : List Nat := exFile.set 0 0

/-- A direct index whose single key holds entries inserted out of `MinTime`
order. -/
def dC5 : directIndex := ⟨[([107], [⟨2, 2, 5, 30⟩, ⟨1, 1, 35, 30⟩])]⟩

/-- A direct index with seven entries under one key, `MinTime` ties at 3
(the writes with offsets 1 and 6). -/
def dC6 : directIndex :=
  ⟨[([107], [⟨5, 5, 0, 0⟩, ⟨3, 3, 1, 0⟩, ⟨0, 0, 2, 0⟩, ⟨0, 0, 3, 0⟩, ⟨0, 0, 4, 0⟩,
    ⟨0, 0, 5, 0⟩, ⟨3, 3, 6, 0⟩])]⟩

/-- A two-record well-formed serialized index, as a record list. -/
def rsEx : List (List Nat × List IndexEntry) :=
  [([99, 112, 117], [⟨0, 0, 5, 30⟩]), ([109, 101, 109], [⟨5, 7, 35, 46⟩])]

/-! ## Theorems -/

theorem length_beBytes (k v : Nat) : (beBytes k v).length = k := by
  induction k generalizing v with
  | zero => rfl
  | succ k ih => simp [beBytes, ih]

theorem beFoldAux_beBytes (k v a : Nat) :
    List.foldl (fun acc b => acc * 256 + b) a (beBytes k v) = a * 256 ^ k + v % 256 ^ k := by
  induction k generalizing v a with
  | zero => simp [beBytes, Nat.mod_one]
  | succ k ih =>
    simp only [beBytes, List.foldl_append, List.foldl_cons, List.foldl_nil, ih]
    have hv : v % 256 ^ (k + 1) = v % 256 + 256 * (v / 256 % 256 ^ k) := by
      rw [pow_succ']
      exact Nat.mod_mul
    rw [hv, pow_succ]
    ring

theorem beFold_beBytes (k v : Nat) : beFold (beBytes k v) = v % 256 ^ k := by
  simp [beFold, beFoldAux_beBytes]

theorem beBytes_lt (k v : Nat) : ∀ b ∈ beBytes k v, b < 256 := by
  induction k generalizing v with
  | zero => simp [beBytes]
  | succ k ih =>
    intro b hb
    simp only [beBytes, List.mem_append, List.mem_cons, List.not_mem_nil, or_false] at hb
    rcases hb with hb | hb
    · exact ih _ _ hb
    · omega

theorem beFold_take_append (k v : Nat) (rest : List Nat) :
    beFold ((beBytes k v ++ rest).take k) = v % 256 ^ k := by
  rw [List.take_left' (length_beBytes k v), beFold_beBytes]

theorem btou16_u16tob (v : Nat) (rest : List Nat) :
    btou16 (u16tob v ++ rest) = v % 2 ^ 16 := by
  have := beFold_take_append 2 v rest
  simpa [btou16, u16tob] using this

theorem btou32_u32tob (v : Nat) (rest : List Nat) :
    btou32 (u32tob v ++ rest) = v % 2 ^ 32 := by
  have := beFold_take_append 4 v rest
  simpa [btou32, u32tob] using this

theorem btou64_u64tob (v : Nat) (rest : List Nat) :
    btou64 (u64tob v ++ rest) = v % 2 ^ 64 := by
  have := beFold_take_append 8 v rest
  simpa [btou64, u64tob] using this

theorem toUint64_lt (x : Int) : toUint64 x < 2 ^ 64 := by
  have h : (0 : Int) < 2 ^ 64 := by norm_num
  have := Int.emod_lt_of_pos x h
  have h0 := Int.emod_nonneg x (by norm_num : (2 ^ 64 : Int) ≠ 0)
  unfold toUint64
  omega

theorem toInt64_toUint64 (x : Int) (hlo : -(2 ^ 63) ≤ x) (hhi : x < 2 ^ 63) :
    toInt64 (toUint64 x) = x := by
  unfold toInt64 toUint64
  rcases le_or_lt 0 x with hx | hx
  · have hmod : x % (2 ^ 64 : Int) = x := Int.emod_eq_of_lt hx (by omega)
    rw [hmod]
    have : x.toNat < 2 ^ 63 := by omega
    simp only [if_pos this]
    omega
  · have hmod : x % (2 ^ 64 : Int) = x + 2 ^ 64 := by
      have : (x + 2 ^ 64) % (2 ^ 64 : Int) = x % (2 ^ 64 : Int) := by
        simp [Int.add_mul_emod_self_left]
      rw [← this]
      exact Int.emod_eq_of_lt (by omega) (by omega)
    rw [hmod]
    have hge : (x + 2 ^ 64).toNat ≥ 2 ^ 63 := by omega
    simp only [if_neg (by omega : ¬ (x + 2 ^ 64).toNat < 2 ^ 63)]
    omega

theorem readUvarint_putUvarint (x : Nat) (rest : List Nat) :
    readUvarint (putUvarint x ++ rest) = (x, (putUvarint x).length) := by
  induction x using Nat.strong_induction_on with
  | _ x ih =>
    by_cases h : x < 128
    · rw [putUvarint, dif_pos h]
      simp [readUvarint, h]
    · rw [putUvarint, dif_neg h]
      have hrec := ih (x / 128) (Nat.div_lt_self (by omega) (by omega))
      simp only [List.cons_append, readUvarint, if_neg (by omega : ¬ x % 128 + 128 < 128),
        List.append_eq, hrec, List.length_cons, Prod.mk.injEq]
      exact ⟨by omega, trivial⟩

theorem putUvarint_lt (x : Nat) : ∀ b ∈ putUvarint x, b < 256 := by
  induction x using Nat.strong_induction_on with
  | _ x ih =>
    by_cases h : x < 128
    · rw [putUvarint, dif_pos h]
      intro b hb
      simp only [List.mem_cons, List.not_mem_nil, or_false] at hb
      omega
    · rw [putUvarint, dif_neg h]
      intro b hb
      simp only [List.mem_cons] at hb
      rcases hb with hb | hb
      · omega
      · exact ih (x / 128) (Nat.div_lt_self (by omega) (by omega)) b hb

theorem keyLt_irrefl (a : List Nat) : keyLt a a = false := by
  induction a with
  | nil => rfl
  | cons x xs ih => simp [keyLt, ih]

theorem keyLt_total (a b : List Nat) :
    keyLt a b = false → keyLt b a = false → a = b := by
  induction a generalizing b with
  | nil => cases b <;> simp [keyLt]
  | cons x xs ih =>
    cases b with
    | nil => simp [keyLt]
    | cons y ys =>
      simp only [keyLt]
      intro h1 h2
      by_cases hxy : x < y
      · simp [hxy] at h1
      · by_cases hyx : y < x
        · simp [hxy, hyx] at h2
        · have hxy' : x = y := by omega
          subst hxy'
          simp only [lt_irrefl, if_false] at h1 h2
          rw [ih _ h1 h2]

theorem keyLt_trans {a b c : List Nat} :
    keyLt a b = true → keyLt b c = true → keyLt a c = true := by
  induction a generalizing b c with
  | nil =>
    cases b with
    | nil => simp [keyLt]
    | cons y ys => cases c <;> simp [keyLt]
  | cons x xs ih =>
    cases b with
    | nil => simp [keyLt]
    | cons y ys =>
      cases c with
      | nil => simp [keyLt]
      | cons z zs =>
        simp only [keyLt]
        intro h1 h2
        rcases Nat.lt_trichotomy x y with hxy | hxy | hxy
        · rcases Nat.lt_trichotomy y z with hyz | hyz | hyz
          · simp [show x < z from lt_trans hxy hyz]
          · subst hyz
            simp [hxy]
          · rw [if_neg (by omega), if_pos hyz] at h2
            exact absurd h2 (by simp)
        · subst hxy
          rw [if_neg (lt_irrefl x), if_neg (lt_irrefl x)] at h1
          rcases Nat.lt_trichotomy x z with hxz | hxz | hxz
          · simp [hxz]
          · subst hxz
            rw [if_neg (lt_irrefl x), if_neg (lt_irrefl x)] at h2
            rw [if_neg (lt_irrefl x), if_neg (lt_irrefl x)]
            exact ih h1 h2
          · rw [if_neg (by omega), if_pos hxz] at h2
            exact absurd h2 (by simp)
        · rw [if_neg (by omega), if_pos hxy] at h1
          exact absurd h1 (by simp)

theorem keyLt_asymm {a b : List Nat} : keyLt a b = true → keyLt b a = false := by
  intro h
  by_contra hne
  have hba : keyLt b a = true := by
    cases hh : keyLt b a
    · exact absurd hh hne
    · rfl
  have := keyLt_trans h hba
  rw [keyLt_irrefl] at this
  exact Bool.false_ne_true this

/-! ## Go's `sort.Sort`

The source sorts `indexEntries` with `sort.Sort` from Go's standard library,
which is documented as *not* stable.  For slices of at most twelve elements
`sort.Sort` runs exactly the algorithm embedded here: a single Shell-sort
pass with gap 6 followed by an insertion sort, both driven by `Less`.  For
longer slices Go switches to an (equally unstable) quicksort over the same
`Less`; every execution still returns a permutation sorted by `Less`.  The
concrete index slices exercised below stay within the small-slice regime. -/

open List in
theorem cons_perm_append_singleton (a : α) (l : List α) : (a :: l) ~ (l ++ [a]) := by
  simpa using (@List.perm_middle α a l []).symm

open List in
theorem cons_set_perm (l : List α) (i : Nat) (x y : α) (h : l[i]? = some y) :
    (y :: l.set i x) ~ (x :: l) := by
  induction l generalizing i with
  | nil => simp at h
  | cons a as ih =>
    cases i with
    | zero =>
      simp only [List.getElem?_cons_zero, Option.some.injEq] at h
      subst h
      simpa [List.set] using (List.Perm.swap a x as).symm
    | succ i =>
      simp only [List.getElem?_cons_succ] at h
      have hih := ih i h
      calc y :: (a :: as).set (i + 1) x = y :: a :: as.set i x := by simp [List.set]
        _ ~ a :: y :: as.set i x := List.Perm.swap _ _ _
        _ ~ a :: x :: as := (hih).cons a
        _ ~ x :: a :: as := List.Perm.swap _ _ _

open List in
theorem shellStep_perm (less : α → α → Bool) (prev : List α) (x : α) :
    shellStep less prev x ~ x :: prev := by
  cases hy : prev[5]? with
  | none => simp [shellStep, hy]
  | some y =>
    by_cases hl : less x y
    · simpa [shellStep, hy, hl] using cons_set_perm prev 5 x y hy
    · simp [shellStep, hy, hl]

theorem length_shellStep (less : α → α → Bool) (prev : List α) (x : α) :
    (shellStep less prev x).length = prev.length + 1 := by
  simpa using (shellStep_perm less prev x).length_eq

open List in
theorem shellPassAux_perm (less : α → α → Bool) (rest : List α) : ∀ prev,
    shellPassAux less prev rest ~ prev.reverse ++ rest := by
  induction rest with
  | nil => intro prev; simp [shellPassAux]
  | cons x rest ih =>
    intro prev
    show shellPassAux less (shellStep less prev x) rest ~ _
    refine (ih (shellStep less prev x)).trans ?_
    have h1 : (shellStep less prev x).reverse ~ prev.reverse ++ [x] :=
      (List.reverse_perm _).trans ((shellStep_perm less prev x).trans
        ((cons_perm_append_singleton x prev).trans
          ((List.reverse_perm prev).symm.append_right [x])))
    have happ := h1.append_right rest
    simpa [List.append_assoc] using happ

open List in
theorem shellPass_perm (less : α → α → Bool) (l : List α) : shellPass less l ~ l := by
  simpa [shellPass] using shellPassAux_perm less l []

open List in
theorem insertOrdered_perm (less : α → α → Bool) (x : α) (l : List α) :
    insertOrdered less x l ~ x :: l := by
  induction l with
  | nil => exact List.Perm.refl _
  | cons y ys ih =>
    rw [insertOrdered]
    by_cases hl : less x y
    · simp [hl]
    · simp only [if_neg hl]
      exact (ih.cons y).trans (List.Perm.swap _ _ _)

open List in
theorem foldl_insertOrdered_perm (less : α → α → Bool) (l : List α) : ∀ acc : List α,
    l.foldl (fun acc x => insertOrdered less x acc) acc ~ acc ++ l := by
  induction l with
  | nil => intro acc; simp
  | cons x rest ih =>
    intro acc
    simp only [List.foldl_cons]
    refine (ih (insertOrdered less x acc)).trans ?_
    refine ((insertOrdered_perm less x acc).append_right rest).trans ?_
    exact List.perm_middle.symm

open List in
theorem insertionSort_perm (less : α → α → Bool) (l : List α) :
    insertionSort less l ~ l := by
  simpa [insertionSort] using foldl_insertOrdered_perm less l []

open List in
theorem goSortBy_perm (less : α → α → Bool) (l : List α) : goSortBy less l ~ l :=
  (insertionSort_perm less _).trans (shellPass_perm less l)

theorem length_goSortBy (less : α → α → Bool) (l : List α) :
    (goSortBy less l).length = l.length :=
  (goSortBy_perm less l).length_eq

theorem mem_goSortBy {less : α → α → Bool} {l : List α} {z : α} :
    z ∈ goSortBy less l ↔ z ∈ l :=
  (goSortBy_perm less l).mem_iff

theorem mem_insertOrdered {less : α → α → Bool} {x z : α} {l : List α} :
    z ∈ insertOrdered less x l ↔ z = x ∨ z ∈ l := by
  rw [(insertOrdered_perm less x l).mem_iff]
  simp

theorem insertOrdered_pairwise {less : α → α → Bool}
    (hasymm : ∀ a b, less a b = true → less b a = false)
    (hnegtrans : ∀ a b c, less a b = false → less b c = false → less a c = false)
    (x : α) {l : List α} (hl : SortedBy less l) :
    SortedBy less (insertOrdered less x l) := by
  induction l with
  | nil => simp [insertOrdered, SortedBy]
  | cons y ys ih =>
    rw [insertOrdered]
    rcases List.pairwise_cons.mp hl with ⟨hy, hys⟩
    by_cases hxy : less x y
    · simp only [if_pos hxy]
      refine List.pairwise_cons.mpr ⟨?_, hl⟩
      intro z hz
      rcases List.mem_cons.mp hz with rfl | hz
      · exact hasymm _ _ hxy
      · exact hnegtrans z y x (hy z hz) (hasymm _ _ hxy)
    · simp only [if_neg hxy]
      refine List.pairwise_cons.mpr ⟨?_, ih hys⟩
      intro z hz
      rcases mem_insertOrdered.mp hz with rfl | hz
      · exact Bool.eq_false_iff.mpr (by simpa using hxy)
      · exact hy z hz

theorem foldl_insertOrdered_sorted {less : α → α → Bool}
    (hasymm : ∀ a b, less a b = true → less b a = false)
    (hnegtrans : ∀ a b c, less a b = false → less b c = false → less a c = false)
    (l : List α) : ∀ acc : List α, SortedBy less acc →
    SortedBy less (l.foldl (fun acc x => insertOrdered less x acc) acc) := by
  induction l with
  | nil => intro acc h; simpa using h
  | cons x rest ih =>
    intro acc h
    simp only [List.foldl_cons]
    exact ih _ (insertOrdered_pairwise hasymm hnegtrans x h)

theorem insertionSort_sorted {less : α → α → Bool}
    (hasymm : ∀ a b, less a b = true → less b a = false)
    (hnegtrans : ∀ a b c, less a b = false → less b c = false → less a c = false)
    (l : List α) : SortedBy less (insertionSort less l) :=
  foldl_insertOrdered_sorted hasymm hnegtrans l [] (by simp [SortedBy])

theorem goSortBy_sorted {less : α → α → Bool}
    (hasymm : ∀ a b, less a b = true → less b a = false)
    (hnegtrans : ∀ a b c, less a b = false → less b c = false → less a c = false)
    (l : List α) : SortedBy less (goSortBy less l) :=
  insertionSort_sorted hasymm hnegtrans _

theorem insertOrdered_of_forall {less : α → α → Bool} {x : α} {l : List α}
    (h : ∀ y ∈ l, less x y = false) : insertOrdered less x l = l ++ [x] := by
  induction l with
  | nil => rfl
  | cons y ys ih =>
    rw [insertOrdered, if_neg]
    · rw [ih (fun z hz => h z (List.mem_cons_of_mem y hz))]
      rfl
    · simp [h y (List.mem_cons_self y ys)]

theorem foldl_insertOrdered_of_pairwise {less : α → α → Bool} (l : List α) : ∀ acc : List α,
    (acc ++ l).Pairwise (fun a b => less b a = false) →
    l.foldl (fun acc x => insertOrdered less x acc) acc = acc ++ l := by
  induction l with
  | nil => intro acc _; simp
  | cons x rest ih =>
    intro acc h
    have hxacc : ∀ y ∈ acc, less x y = false := by
      intro y hy
      rcases List.pairwise_append.mp h with ⟨_, _, hrel⟩
      exact hrel y hy x (List.mem_cons_self x rest)
    simp only [List.foldl_cons]
    rw [insertOrdered_of_forall hxacc]
    have h2 : (acc ++ [x] ++ rest).Pairwise (fun a b => less b a = false) := by
      simpa [List.append_assoc] using h
    rw [ih (acc ++ [x]) h2]
    simp

theorem insertionSort_of_sorted {less : α → α → Bool} {l : List α}
    (h : SortedBy less l) : insertionSort less l = l := by
  simpa [insertionSort] using foldl_insertOrdered_of_pairwise l [] (by simpa [SortedBy] using h)

theorem shellStep_of_pairwise {less : α → α → Bool} {prev : List α} {x : α}
    (h : ∀ y ∈ prev, less x y = false) : shellStep less prev x = x :: prev := by
  cases hy : prev[5]? with
  | none => simp [shellStep, hy]
  | some y =>
    have hmem : y ∈ prev := List.getElem?_mem hy
    simp [shellStep, hy, h y hmem]

theorem shellPassAux_of_pairwise {less : α → α → Bool} (rest : List α) : ∀ prev,
    (prev.reverse ++ rest).Pairwise (fun a b => less b a = false) →
    shellPassAux less prev rest = prev.reverse ++ rest := by
  induction rest with
  | nil => intro prev _; simp [shellPassAux]
  | cons x rest ih =>
    intro prev h
    have hxprev : ∀ y ∈ prev, less x y = false := by
      intro y hy
      rcases List.pairwise_append.mp h with ⟨_, _, hrel⟩
      exact hrel y (by simpa using hy) x (List.mem_cons_self x rest)
    show shellPassAux less (shellStep less prev x) rest = _
    rw [shellStep_of_pairwise hxprev]
    have h2 : ((x :: prev).reverse ++ rest).Pairwise (fun a b => less b a = false) := by
      simpa [List.append_assoc] using h
    rw [ih (x :: prev) h2]
    simp

theorem shellPass_of_sorted {less : α → α → Bool} {l : List α}
    (h : SortedBy less l) : shellPass less l = l := by
  simpa [shellPass] using shellPassAux_of_pairwise l [] (by simpa [SortedBy] using h)

theorem goSortBy_of_sorted {less : α → α → Bool} {l : List α}
    (h : SortedBy less l) : goSortBy less l = l := by
  rw [goSortBy, shellPass_of_sorted h, insertionSort_of_sorted h]

theorem indexEntryLess_asymm :
    ∀ a b : IndexEntry, indexEntryLess a b = true → indexEntryLess b a = false := by
  intro a b h
  simp only [indexEntryLess, decide_eq_true_eq] at h
  simp only [indexEntryLess, decide_eq_false_iff_not]
  omega

theorem indexEntryLess_negtrans :
    ∀ a b c : IndexEntry, indexEntryLess a b = false → indexEntryLess b c = false →
      indexEntryLess a c = false := by
  intro a b c h1 h2
  simp only [indexEntryLess, decide_eq_false_iff_not] at h1 h2 ⊢
  omega

theorem keyLt_negtrans :
    ∀ a b c : List Nat, keyLt a b = false → keyLt b c = false → keyLt a c = false := by
  intro a b c hab hbc
  cases hac : keyLt a c with
  | false => rfl
  | true =>
    exfalso
    cases hba : keyLt b a with
    | true =>
      have := keyLt_trans hba hac
      rw [hbc] at this
      exact Bool.false_ne_true this
    | false =>
      have heq : a = b := keyLt_total a b hab hba
      subst heq
      rw [hac] at hbc
      simp at hbc

/-! ## Round-trip lemmas for the serialized index -/

theorem length_u16tob (v : Nat) : (u16tob v).length = 2 := length_beBytes 2 v

theorem length_u32tob (v : Nat) : (u32tob v).length = 4 := length_beBytes 4 v

theorem length_u64tob (v : Nat) : (u64tob v).length = 8 := length_beBytes 8 v

theorem btou16_small (v : Nat) (h : v < 2 ^ 16) (rest : List Nat) :
    btou16 (u16tob v ++ rest) = v := by
  rw [btou16_u16tob, Nat.mod_eq_of_lt h]

theorem btou32_small (v : Nat) (h : v < 2 ^ 32) (rest : List Nat) :
    btou32 (u32tob v ++ rest) = v := by
  rw [btou32_u32tob, Nat.mod_eq_of_lt h]

theorem toInt64_btou64_toUint64 (x : Int) (hlo : -(2 ^ 63) ≤ x) (hhi : x < 2 ^ 63)
    (rest : List Nat) : toInt64 (btou64 (u64tob (toUint64 x) ++ rest)) = x := by
  rw [btou64_u64tob, Nat.mod_eq_of_lt (toUint64_lt x), toInt64_toUint64 x hlo hhi]

theorem length_encodeEntry (e : IndexEntry) : (encodeEntry e).length = 28 := by
  simp [encodeEntry, length_u64tob, length_u32tob, u64tob, u32tob, length_beBytes]

theorem UnmarshalBinary_encodeEntry (e : IndexEntry) (h : e.InRange) :
    IndexEntry.UnmarshalBinary (encodeEntry e) = .ok e := by
  obtain ⟨h1, h2, h3, h4, h5, h6, h7⟩ := h
  have hassoc : encodeEntry e =
      u64tob (toUint64 e.MinTime) ++ (u64tob (toUint64 e.MaxTime) ++
        (u64tob (toUint64 e.Offset) ++ u32tob e.Size)) := by
    simp [encodeEntry]
  rw [IndexEntry.UnmarshalBinary, if_neg (by rw [length_encodeEntry]; omega)]
  have hd8 : (encodeEntry e).drop 8 =
      u64tob (toUint64 e.MaxTime) ++ (u64tob (toUint64 e.Offset) ++ u32tob e.Size) := by
    rw [hassoc, List.drop_left' (length_u64tob _)]
  have hd16 : (encodeEntry e).drop 16 = u64tob (toUint64 e.Offset) ++ u32tob e.Size := by
    have : (16 : Nat) = 8 + 8 := by norm_num
    rw [this, ← List.drop_drop, hd8, List.drop_left' (length_u64tob _)]
  have hd24 : (encodeEntry e).drop 24 = u32tob e.Size := by
    have : (24 : Nat) = 16 + 8 := by norm_num
    rw [this, ← List.drop_drop, hd16, List.drop_left' (length_u64tob _)]
  have hmin : toInt64 (btou64 (encodeEntry e)) = e.MinTime := by
    rw [hassoc, toInt64_btou64_toUint64 _ h1 h2]
  have hmax : toInt64 (btou64 ((encodeEntry e).drop 8)) = e.MaxTime := by
    rw [hd8, toInt64_btou64_toUint64 _ h3 h4]
  have hoff : toInt64 (btou64 ((encodeEntry e).drop 16)) = e.Offset := by
    rw [hd16, toInt64_btou64_toUint64 _ h5 h6]
  have hsize : btou32 ((encodeEntry e).drop 24) = e.Size := by
    rw [hd24]
    simpa using btou32_small e.Size h7 []
  rw [hmin, hmax, hoff, hsize]

theorem length_flatten_encodeEntry (es : List IndexEntry) :
    ((es.map encodeEntry).flatten).length = 28 * es.length := by
  induction es with
  | nil => rfl
  | cons e es ih =>
    simp only [List.map_cons, List.flatten_cons, List.length_append, ih,
      length_encodeEntry, List.length_cons]
    ring

theorem length_encodeRecord (key : List Nat) (es : List IndexEntry) :
    (encodeRecord key es).length = 4 + key.length + 28 * es.length := by
  simp only [encodeRecord, List.length_append, length_u16tob, length_flatten_encodeEntry]
  omega

theorem readEntriesAux_encode (es : List IndexEntry) (h : ∀ e ∈ es, e.InRange) :
    ∀ (b rest : List Nat) (i : Nat),
      b.drop (i * 28 + 2) = (es.map encodeEntry).flatten ++ rest →
      readEntriesAux b es.length i = .ok es := by
  induction es with
  | nil => intro b rest i _; rfl
  | cons e es ih =>
    intro b rest i hdrop
    have hslice : (b.drop (i * 28 + 2)).take 28 = encodeEntry e := by
      rw [hdrop]
      simp only [List.map_cons, List.flatten_cons, List.append_assoc]
      exact List.take_left' (length_encodeEntry e)
    have hnext : b.drop ((i + 1) * 28 + 2) = (es.map encodeEntry).flatten ++ rest := by
      have harith : (i + 1) * 28 + 2 = (i * 28 + 2) + 28 := by ring
      rw [harith, ← List.drop_drop, hdrop]
      simp only [List.map_cons, List.flatten_cons, List.append_assoc]
      exact List.drop_left' (length_encodeEntry e)
    show readEntriesAux b (es.length + 1) i = .ok (e :: es)
    rw [readEntriesAux, hslice, UnmarshalBinary_encodeEntry e (h e (List.mem_cons_self e es)),
      ih (fun x hx => h x (List.mem_cons_of_mem e hx)) b rest (i + 1) hnext]
    rfl

theorem readEntries_encode (es : List IndexEntry) (h : ∀ e ∈ es, e.InRange)
    (hlen : es.length < 2 ^ 16) (rest : List Nat) :
    readEntries (u16tob es.length ++ ((es.map encodeEntry).flatten ++ rest)) =
      .ok (2 + 28 * es.length, es) := by
  rw [readEntries]
  have hcount : btou16 (u16tob es.length ++ ((es.map encodeEntry).flatten ++ rest)) =
      es.length := btou16_small _ hlen _
  rw [hcount]
  have hdrop : (u16tob es.length ++ ((es.map encodeEntry).flatten ++ rest)).drop (0 * 28 + 2) =
      (es.map encodeEntry).flatten ++ rest := by
    simpa using List.drop_left' (length_u16tob es.length)
  rw [readEntriesAux_encode es h _ rest 0 hdrop]
  rfl

theorem MarshalBinary_eq_encodeIndex (d : directIndex) :
    d.MarshalBinary = encodeIndex d.marshalRecords := rfl

theorem encodeRecord_assoc (key : List Nat) (es : List IndexEntry) (rest : List Nat) :
    encodeRecord key es ++ rest =
      u16tob key.length ++ (key ++ (u16tob es.length ++ ((es.map encodeEntry).flatten ++ rest))) := by
  simp [encodeRecord, List.append_assoc]

theorem readKey_encodeRecord (key : List Nat) (es : List IndexEntry) (rest : List Nat)
    (hk : key.length < 2 ^ 16) :
    readKey (encodeRecord key es ++ rest) = (2 + key.length, key) := by
  rw [readKey, encodeRecord_assoc, btou16_small _ hk, List.drop_left' (length_u16tob _),
    List.take_left' rfl]

theorem readEntries_encodeRecord (key : List Nat) (es : List IndexEntry) (rest : List Nat)
    (h : ∀ e ∈ es, e.InRange) (hlen : es.length < 2 ^ 16) :
    readEntries ((encodeRecord key es ++ rest).drop (2 + key.length)) =
      .ok (2 + 28 * es.length, es) := by
  have hdrop : (encodeRecord key es ++ rest).drop (2 + key.length) =
      u16tob es.length ++ ((es.map encodeEntry).flatten ++ rest) := by
    rw [encodeRecord_assoc, ← List.drop_drop, List.drop_left' (length_u16tob _),
      List.drop_left' rfl]
  rw [hdrop, readEntries_encode es h hlen rest]

theorem unmarshalLoop_encodeIndex (rs : List (List Nat × List IndexEntry))
    (h : ∀ p ∈ rs, RecWF p) : ∀ d : directIndex,
    unmarshalLoop d (encodeIndex rs) =
      .ok (rs.foldl (fun d p => d.addEntries p.1 p.2) d) := by
  induction rs with
  | nil =>
    intro d
    rw [show encodeIndex ([] : List (List Nat × List IndexEntry)) = [] from rfl, unmarshalLoop]
    simp
  | cons p rs ih =>
    intro d
    obtain ⟨hk, _hbytes, hcnt, hes⟩ := h p (List.mem_cons_self p rs)
    have hrest : ∀ q ∈ rs, RecWF q := fun q hq => h q (List.mem_cons_of_mem p hq)
    have hplit : encodeIndex (p :: rs) = encodeRecord p.1 p.2 ++ encodeIndex rs := by
      simp [encodeIndex]
    have hne : encodeIndex (p :: rs) ≠ [] := by
      rw [hplit]
      intro hcontra
      have := congrArg List.length hcontra
      simp only [List.length_append, length_encodeRecord, List.length_nil] at this
      omega
    rw [unmarshalLoop, dif_neg hne, hplit, readKey_encodeRecord p.1 p.2 _ hk,
      readEntries_encodeRecord p.1 p.2 _ hes hcnt]
    have hdroprec : (encodeRecord p.1 p.2 ++ encodeIndex rs).drop
        (2 + p.1.length + (2 + 28 * p.2.length)) = encodeIndex rs := by
      apply List.drop_left'
      rw [length_encodeRecord]
      omega
    show unmarshalLoop (d.addEntries p.1 p.2)
        ((encodeRecord p.1 p.2 ++ encodeIndex rs).drop (2 + p.1.length + (2 + 28 * p.2.length))) =
      Except.ok (List.foldl (fun d p => d.addEntries p.1 p.2) d (p :: rs))
    rw [hdroprec, ih hrest]
    rfl

theorem addToBlocks_not_mem (bs : List (List Nat × List IndexEntry)) (key : List Nat)
    (es : List IndexEntry) (h : ∀ p ∈ bs, p.1 ≠ key) :
    addToBlocks bs key es = bs ++ [(key, es)] := by
  induction bs with
  | nil => rfl
  | cons q bs ih =>
    rw [show (q :: bs) = (q.1, q.2) :: bs from rfl, addToBlocks,
      if_neg (h q (List.mem_cons_self q bs)), ih (fun p hp => h p (List.mem_cons_of_mem q hp))]
    rfl

theorem foldl_addEntries_fresh (rs : List (List Nat × List IndexEntry))
    (hnodup : (rs.map Prod.fst).Nodup) : ∀ acc : directIndex,
    (∀ p ∈ rs, p.1 ∉ acc.keys) →
    rs.foldl (fun d p => d.addEntries p.1 p.2) acc = ⟨acc.blocks ++ rs⟩ := by
  induction rs with
  | nil => intro acc _; simp
  | cons p rs ih =>
    intro acc hfresh
    have hstep : acc.addEntries p.1 p.2 = ⟨acc.blocks ++ [(p.1, p.2)]⟩ := by
      unfold directIndex.addEntries
      rw [addToBlocks_not_mem]
      intro q hq hcontra
      exact hfresh p (List.mem_cons_self p rs)
        (by simpa [directIndex.keys, hcontra] using List.mem_map_of_mem Prod.fst hq)
    simp only [List.foldl_cons, hstep]
    rw [ih (by simpa using hnodup.of_cons) ⟨acc.blocks ++ [(p.1, p.2)]⟩ ?_]
    · simp
    · intro q hq
      simp only [directIndex.keys, List.map_append, List.mem_append, List.map_cons,
        List.map_nil, List.mem_cons, List.not_mem_nil, or_false, not_or]
      refine ⟨fun hc => hfresh q (List.mem_cons_of_mem p hq) (by simpa [directIndex.keys] using hc), ?_⟩
      intro hc
      rcases List.nodup_cons.mp hnodup with ⟨hnp, _⟩
      exact hnp (by simpa [hc] using List.mem_map_of_mem Prod.fst hq)

theorem UnmarshalBinary_encodeIndex (rs : List (List Nat × List IndexEntry))
    (h : ∀ p ∈ rs, RecWF p) (hnodup : (rs.map Prod.fst).Nodup) :
    directIndex.UnmarshalBinary NewDirectIndex (encodeIndex rs) = .ok ⟨rs⟩ := by
  rw [directIndex.UnmarshalBinary, unmarshalLoop_encodeIndex rs h NewDirectIndex,
    foldl_addEntries_fresh rs hnodup NewDirectIndex (by simp [NewDirectIndex, directIndex.keys])]
  rfl

/-! ## Lookup lemmas for the direct index and its marshalled form -/

theorem goSortEntries_nil : goSortEntries [] = [] := rfl

theorem find?_map_pair (f : List Nat → List IndexEntry) (ks : List (List Nat)) (k : List Nat) :
    ((ks.map (fun x => (x, f x))).find? (fun p => p.1 == k)) =
      if k ∈ ks then some (k, f k) else none := by
  induction ks with
  | nil => simp
  | cons a ks ih =>
    by_cases hak : a = k
    · subst hak
      rw [List.map_cons, List.find?_cons_of_pos _ (by simp)]
      simp
    · rw [List.map_cons, List.find?_cons_of_neg _ (by simp [hak]), ih]
      have hmem : (k ∈ a :: ks) ↔ (k ∈ ks) := by
        simp [List.mem_cons, (Ne.symm hak : k ≠ a)]
      by_cases hk : k ∈ ks
      · rw [if_pos hk, if_pos (hmem.mpr hk)]
      · rw [if_neg hk, if_neg (fun hc => hk (hmem.mp hc))]

theorem marshalState_Entries (d : directIndex) (k : List Nat) :
    (d.marshalState).Entries k = goSortEntries (d.Entries k) := by
  unfold directIndex.marshalState directIndex.Entries
  have hfind : ((d.blocks.map (fun p => (p.1, goSortEntries p.2))).find?
      (fun p => p.1 == k)) =
      (d.blocks.find? (fun p => p.1 == k)).map (fun p => (p.1, goSortEntries p.2)) := by
    rw [List.find?_map]
    rfl
  rw [hfind]
  cases hf : d.blocks.find? (fun p => p.1 == k) with
  | none => simp [goSortEntries_nil]
  | some q => simp

theorem mem_sortStrings {ks : List (List Nat)} {k : List Nat} :
    k ∈ sortStrings ks ↔ k ∈ ks :=
  (goSortBy_perm keyLt ks).mem_iff

theorem marshalRecords_Entries (d : directIndex) (k : List Nat) :
    directIndex.Entries ⟨d.marshalRecords⟩ k =
      if k ∈ d.keys then goSortEntries (d.Entries k) else [] := by
  have h1 : directIndex.Entries ⟨d.marshalRecords⟩ k =
      (((d.marshalRecords).find? (fun p => p.1 == k)).map Prod.snd).getD [] := rfl
  rw [h1, directIndex.marshalRecords, find?_map_pair]
  by_cases hk : k ∈ d.keys
  · rw [if_pos (mem_sortStrings.mpr hk), if_pos hk]
    rfl
  · rw [if_neg (fun hc => hk (mem_sortStrings.mp hc)), if_neg hk]
    rfl

theorem marshalRecords_Entries_total (d : directIndex) (k : List Nat) :
    directIndex.Entries ⟨d.marshalRecords⟩ k = (d.marshalState).Entries k := by
  rw [marshalRecords_Entries, marshalState_Entries]
  by_cases hk : k ∈ d.keys
  · rw [if_pos hk]
  · rw [if_neg hk]
    suffices hnone : d.Entries k = [] by rw [hnone, goSortEntries_nil]
    unfold directIndex.Entries
    cases hf : d.blocks.find? (fun p => p.1 == k) with
    | none => rfl
    | some q =>
      exfalso
      apply hk
      have hq : q ∈ d.blocks := List.mem_of_find?_eq_some hf
      have hpk : q.1 = k := by simpa using List.find?_some hf
      exact hpk ▸ List.mem_map_of_mem Prod.fst hq

theorem Entries_of_mem_keys (d : directIndex) (k : List Nat) (hk : k ∈ d.keys) :
    ∃ q ∈ d.blocks, q.1 = k ∧ d.Entries k = q.2 := by
  rcases List.mem_map.mp hk with ⟨q0, hq0, hfst⟩
  cases hf : d.blocks.find? (fun p => p.1 == k) with
  | none =>
    exfalso
    have := List.find?_eq_none.mp hf q0 hq0
    simp [hfst] at this
  | some q =>
    refine ⟨q, List.mem_of_find?_eq_some hf, by simpa using List.find?_some hf, ?_⟩
    unfold directIndex.Entries
    rw [hf]
    rfl

theorem marshalRecords_RecWF (d : directIndex) (h : DirWF d) :
    ∀ p ∈ d.marshalRecords, RecWF p := by
  intro p hp
  rcases List.mem_map.mp hp with ⟨k, hkmem, rfl⟩
  have hk : k ∈ d.keys := mem_sortStrings.mp hkmem
  rcases Entries_of_mem_keys d k hk with ⟨q, hq, hqk, hqe⟩
  rcases h.2 q hq with ⟨hlen, hbytes, hcnt, hin⟩
  refine ⟨by rw [← hqk]; exact hlen, by rw [← hqk]; exact hbytes, ?_, ?_⟩
  · rw [hqe, goSortEntries, length_goSortBy]
    exact hcnt
  · intro e he
    rw [hqe] at he
    exact hin e (mem_goSortBy.mp he)

theorem marshalRecords_keys (d : directIndex) :
    d.marshalRecords.map Prod.fst = sortStrings d.keys := by
  unfold directIndex.marshalRecords
  rw [List.map_map]
  exact List.map_id _

theorem marshalRecords_nodup (d : directIndex) (h : DirWF d) :
    (d.marshalRecords.map Prod.fst).Nodup := by
  rw [marshalRecords_keys]
  exact ((goSortBy_perm keyLt d.keys).nodup_iff).mpr h.1

/-- Decoding the bytes `MarshalBinary` produced yields exactly the
marshalled records, as a fresh index. -/
theorem UnmarshalBinary_MarshalBinary (d : directIndex) (h : DirWF d) :
    directIndex.UnmarshalBinary NewDirectIndex d.MarshalBinary = .ok ⟨d.marshalRecords⟩ := by
  rw [MarshalBinary_eq_encodeIndex]
  exact UnmarshalBinary_encodeIndex d.marshalRecords (marshalRecords_RecWF d h)
    (marshalRecords_nodup d h)

theorem length_offsetsOf (rs : List (List Nat × List IndexEntry)) :
    (offsetsOf rs).length = rs.length := by
  induction rs with
  | nil => rfl
  | cons p rs ih => simp [offsetsOf, ih]

theorem drop_encodeRecord_count (key : List Nat) (es : List IndexEntry) (rest : List Nat) :
    (encodeRecord key es ++ rest).drop (2 + key.length) =
      u16tob es.length ++ ((es.map encodeEntry).flatten ++ rest) := by
  rw [encodeRecord_assoc, ← List.drop_drop, List.drop_left' (length_u16tob _),
    List.drop_left' rfl]

theorem scanOffsets_encodeIndex (rs : List (List Nat × List IndexEntry))
    (h : ∀ p ∈ rs, RecWF p) : ∀ pre : List Nat,
    scanOffsets (pre ++ encodeIndex rs) pre.length =
      (offsetsOf rs).map (fun o => o + pre.length) := by
  induction rs with
  | nil =>
    intro pre
    rw [scanOffsets, dif_neg]
    · rfl
    · simp [encodeIndex]
  | cons p rs ih =>
    intro pre
    obtain ⟨hk, _, hcnt, _⟩ := h p (List.mem_cons_self p rs)
    have hplit : encodeIndex (p :: rs) = encodeRecord p.1 p.2 ++ encodeIndex rs := by
      simp [encodeIndex]
    have hlt : pre.length < (pre ++ encodeIndex (p :: rs)).length := by
      rw [List.length_append, hplit, List.length_append, length_encodeRecord]
      omega
    rw [scanOffsets, dif_pos hlt]
    have hdrop0 : (pre ++ encodeIndex (p :: rs)).drop pre.length = encodeIndex (p :: rs) :=
      List.drop_left' rfl
    have hkl : btou16 ((pre ++ encodeIndex (p :: rs)).drop pre.length) = p.1.length := by
      rw [hdrop0, hplit, encodeRecord_assoc, btou16_small _ hk]
    have hdrop2 : (pre ++ encodeIndex (p :: rs)).drop (pre.length + 2 + p.1.length) =
        u16tob p.2.length ++ ((p.2.map encodeEntry).flatten ++ encodeIndex rs) := by
      have harith : pre.length + 2 + p.1.length = pre.length + (2 + p.1.length) := by omega
      rw [harith, ← List.drop_drop, hdrop0, hplit, drop_encodeRecord_count]
    have hcountv : btou16 ((pre ++ encodeIndex (p :: rs)).drop
        (pre.length + 2 + p.1.length)) = p.2.length := by
      rw [hdrop2, btou16_small _ hcnt]
    rw [hkl, hcountv]
    have hnext : pre.length + 2 + p.1.length + 2 + p.2.length * 28 =
        (pre ++ encodeRecord p.1 p.2).length := by
      rw [List.length_append, length_encodeRecord]
      omega
    have hre : pre ++ encodeIndex (p :: rs) = (pre ++ encodeRecord p.1 p.2) ++ encodeIndex rs := by
      rw [hplit, List.append_assoc]
    rw [hnext, hre, ih (fun q hq => h q (List.mem_cons_of_mem p hq)) (pre ++ encodeRecord p.1 p.2)]
    rw [offsetsOf, List.map_cons, List.map_map]
    congr 1
    · omega
    · apply List.map_congr_left
      intro o _
      simp only [Function.comp_apply, List.length_append, length_encodeRecord]
      omega

theorem scanOffsets_encodeIndex0 (rs : List (List Nat × List IndexEntry))
    (h : ∀ p ∈ rs, RecWF p) :
    scanOffsets (encodeIndex rs) 0 = offsetsOf rs := by
  have := scanOffsets_encodeIndex rs h []
  simpa using this

theorem drop_offsetsOf (rs : List (List Nat × List IndexEntry)) :
    ∀ i, i < rs.length →
      (encodeIndex rs).drop ((offsetsOf rs).getD i 0) = encodeIndex (rs.drop i) := by
  induction rs with
  | nil => intro i hi; simp at hi
  | cons p rs ih =>
    intro i hi
    cases i with
    | zero => simp [offsetsOf]
    | succ i =>
      have hi' : i < rs.length := by simpa using hi
      have hoff : (offsetsOf (p :: rs)).getD (i + 1) 0 =
          (offsetsOf rs).getD i 0 + (encodeRecord p.1 p.2).length := by
        show (List.getD (0 :: (offsetsOf rs).map (fun o => o + (encodeRecord p.1 p.2).length))
          (i + 1) 0) = _
        rw [List.getD_cons_succ]
        have hil : i < (offsetsOf rs).length := by rw [length_offsetsOf]; exact hi'
        rw [List.getD_eq_getElem?_getD, List.getElem?_map,
          List.getElem?_eq_getElem hil]
        simp [List.getD_eq_getElem?_getD, List.getElem?_eq_getElem hil]
      have hplit : encodeIndex (p :: rs) = encodeRecord p.1 p.2 ++ encodeIndex rs := by
        simp [encodeIndex]
      rw [hoff, hplit, show (offsetsOf rs).getD i 0 + (encodeRecord p.1 p.2).length =
        (encodeRecord p.1 p.2).length + (offsetsOf rs).getD i 0 from by omega,
        List.drop_append, ih i hi']
      rfl

theorem searchLoop_bounds (f : Nat → Bool) : ∀ n i j, j - i = n → i ≤ j →
    i ≤ searchLoop f i j ∧ searchLoop f i j ≤ j := by
  intro n
  induction n using Nat.strong_induction_on with
  | _ n ih =>
    intro i j hn hij
    by_cases h : i < j
    · rw [searchLoop, dif_pos h]
      by_cases hf : f (i + (j - i) / 2)
      · rw [if_pos hf]
        have := ih ((i + (j - i) / 2) - i) (by omega) i (i + (j - i) / 2) rfl (by omega)
        omega
      · rw [if_neg hf]
        have := ih (j - (i + (j - i) / 2 + 1)) (by omega) (i + (j - i) / 2 + 1) j rfl (by omega)
        omega
    · rw [searchLoop, dif_neg h]
      omega

theorem searchLoop_main (f : Nat → Bool) (N : Nat)
    (hmono : ∀ a c, a ≤ c → c < N → f a = true → f c = true) :
    ∀ n i j, j - i = n → i ≤ j → j ≤ N →
      (∀ k, i ≤ k → k < searchLoop f i j → f k = false) ∧
      (searchLoop f i j < j → f (searchLoop f i j) = true) := by
  intro n
  induction n using Nat.strong_induction_on with
  | _ n ih =>
    intro i j hn hij hjN
    by_cases h : i < j
    · have hm1 : i ≤ i + (j - i) / 2 := by omega
      have hm2 : i + (j - i) / 2 < j := by omega
      by_cases hf : f (i + (j - i) / 2)
      · have hr : searchLoop f i j = searchLoop f i (i + (j - i) / 2) := by
          rw [searchLoop, dif_pos h, if_pos hf]
        have hbnd := searchLoop_bounds f ((i + (j - i) / 2) - i) i (i + (j - i) / 2) rfl (by omega)
        have hrec := ih ((i + (j - i) / 2) - i) (by omega) i (i + (j - i) / 2) rfl (by omega)
          (by omega)
        rw [hr]
        refine ⟨hrec.1, ?_⟩
        intro _
        by_cases hlt : searchLoop f i (i + (j - i) / 2) < i + (j - i) / 2
        · exact hrec.2 hlt
        · have : searchLoop f i (i + (j - i) / 2) = i + (j - i) / 2 := by omega
          rw [this]
          exact hf
      · have hr : searchLoop f i j = searchLoop f (i + (j - i) / 2 + 1) j := by
          rw [searchLoop, dif_pos h, if_neg hf]
        have hrec := ih (j - (i + (j - i) / 2 + 1)) (by omega) (i + (j - i) / 2 + 1) j rfl
          (by omega) hjN
        have hbnd := searchLoop_bounds f (j - (i + (j - i) / 2 + 1)) (i + (j - i) / 2 + 1) j rfl
          (by omega)
        rw [hr]
        refine ⟨?_, hrec.2⟩
        intro k hk1 hk2
        by_cases hkm : k ≤ i + (j - i) / 2
        · cases hfk : f k with
          | false => rfl
          | true =>
            exact absurd (hmono k (i + (j - i) / 2) hkm (by omega) hfk) (by simpa using hf)
        · exact hrec.1 k (by omega) hk2
    · rw [searchLoop, dif_neg h]
      have : i = j := by omega
      subst this
      exact ⟨fun k hk1 hk2 => absurd (lt_of_lt_of_le hk2 (le_refl i)) (by omega),
        fun hc => absurd hc (by omega)⟩

/-- The specification of `sort.Search`: with a predicate monotone below `n`,
it returns the least index satisfying it, or `n`. -/
theorem sortSearch_spec (f : Nat → Bool) (n : Nat)
    (hmono : ∀ a c, a ≤ c → c < n → f a = true → f c = true) :
    sortSearch n f ≤ n ∧ (∀ k, k < sortSearch n f → f k = false) ∧
      (sortSearch n f < n → f (sortSearch n f) = true) := by
  have hb := searchLoop_bounds f n 0 n (by omega) (by omega)
  have hm := searchLoop_main f n hmono n 0 n (by omega) (by omega) (by omega)
  exact ⟨hb.2, fun k hk => hm.1 k (Nat.zero_le k) hk, hm.2⟩

theorem indirectEntries_def (b o key : List Nat) :
    indirectIndex.Entries ⟨b, o⟩ key =
      if sortSearch o.length (probeFun b o key) < o.length then
        if (readKey (b.drop (o.getD (sortSearch o.length (probeFun b o key)) 0))).2 ≠ key then
          .ok []
        else
          match readEntries (b.drop (o.getD (sortSearch o.length (probeFun b o key)) 0 +
              (readKey (b.drop (o.getD (sortSearch o.length (probeFun b o key)) 0))).1)) with
          | .error _ => .error (.goPanic "error reading entries")
          | .ok p => .ok p.2
      else .ok [] := rfl

theorem recAt_eq_getElem (rs : List (List Nat × List IndexEntry)) (i : Nat)
    (hi : i < rs.length) : recAt rs i = rs[i] := by
  unfold recAt
  rw [List.getD_eq_getElem?_getD, List.getElem?_eq_getElem hi]
  rfl

theorem recAt_mem (rs : List (List Nat × List IndexEntry)) (i : Nat)
    (hi : i < rs.length) : recAt rs i ∈ rs := by
  rw [recAt_eq_getElem rs i hi]
  exact List.getElem_mem hi

theorem drop_at_offset (rs : List (List Nat × List IndexEntry))
    (i : Nat) (hi : i < rs.length) :
    (encodeIndex rs).drop ((offsetsOf rs).getD i 0) =
      encodeRecord (recAt rs i).1 (recAt rs i).2 ++ encodeIndex (rs.drop (i + 1)) := by
  rw [drop_offsetsOf rs i hi, List.drop_eq_getElem_cons hi, ← recAt_eq_getElem rs i hi]
  simp [encodeIndex]

theorem readKey_at_offset (rs : List (List Nat × List IndexEntry))
    (hwf : ∀ p ∈ rs, RecWF p) (i : Nat) (hi : i < rs.length) :
    readKey ((encodeIndex rs).drop ((offsetsOf rs).getD i 0)) =
      (2 + (recAt rs i).1.length, (recAt rs i).1) := by
  rw [drop_at_offset rs i hi]
  exact readKey_encodeRecord _ _ _ (hwf _ (recAt_mem rs i hi)).1

theorem probe_at_offset (rs : List (List Nat × List IndexEntry))
    (hwf : ∀ p ∈ rs, RecWF p) (i : Nat) (hi : i < rs.length) :
    ((encodeIndex rs).drop ((offsetsOf rs).getD i 0 + 2)).take
        (btou16 ((encodeIndex rs).drop ((offsetsOf rs).getD i 0))) = (recAt rs i).1 := by
  have h1 : (encodeIndex rs).drop ((offsetsOf rs).getD i 0 + 2) =
      ((encodeIndex rs).drop ((offsetsOf rs).getD i 0)).drop 2 := (List.drop_drop 2 _ _).symm
  rw [h1]
  exact congrArg Prod.snd (readKey_at_offset rs hwf i hi)

theorem probeFun_eq (rs : List (List Nat × List IndexEntry))
    (hwf : ∀ p ∈ rs, RecWF p) (key : List Nat) (i : Nat) (hi : i < rs.length) :
    probeFun (encodeIndex rs) (offsetsOf rs) key i =
      (key == (recAt rs i).1 || keyLt key (recAt rs i).1) := by
  unfold probeFun
  rw [probe_at_offset rs hwf i hi]

theorem keys_lt_of_sorted (rs : List (List Nat × List IndexEntry)) (hs : KeysSorted rs)
    (i j : Nat) (hij : i < j) (hj : j < rs.length) :
    keyLt (recAt rs i).1 (recAt rs j).1 = true := by
  have hi : i < rs.length := lt_trans hij hj
  have h := List.pairwise_iff_getElem.mp hs i j (by simpa using hi) (by simpa using hj) hij
  simpa [List.getElem_map, recAt_eq_getElem rs i hi, recAt_eq_getElem rs j hj] using h

theorem nodup_of_keysSorted (rs : List (List Nat × List IndexEntry)) (hs : KeysSorted rs) :
    (rs.map Prod.fst).Nodup := by
  refine hs.imp ?_
  intro a b hab hEq
  subst hEq
  rw [keyLt_irrefl] at hab
  exact Bool.false_ne_true hab

theorem eq_of_fst_eq_of_nodup (rs : List (List Nat × List IndexEntry))
    (hnd : (rs.map Prod.fst).Nodup) {p q : List Nat × List IndexEntry}
    (hp : p ∈ rs) (hq : q ∈ rs) (h : p.1 = q.1) : p = q := by
  induction rs with
  | nil => simp at hp
  | cons a rsl ih =>
    rw [List.map_cons] at hnd
    rcases List.nodup_cons.mp hnd with ⟨hna, hnd'⟩
    rcases List.mem_cons.mp hp with rfl | hp'
    · rcases List.mem_cons.mp hq with rfl | hq'
      · rfl
      · exact absurd (h ▸ List.mem_map_of_mem Prod.fst hq') hna
    · rcases List.mem_cons.mp hq with rfl | hq'
      · exact absurd (h ▸ List.mem_map_of_mem Prod.fst hp') hna
      · exact ih hnd' hp' hq'

theorem Entries_eq_of_found (rs : List (List Nat × List IndexEntry))
    (hnd : (rs.map Prod.fst).Nodup) (key : List Nat) (r : Nat) (hr : r < rs.length)
    (hk : (recAt rs r).1 = key) : directIndex.Entries ⟨rs⟩ key = (recAt rs r).2 := by
  have hEntries : directIndex.Entries ⟨rs⟩ key =
      ((rs.find? (fun p => p.1 == key)).map Prod.snd).getD [] := rfl
  cases hf : rs.find? (fun p => p.1 == key) with
  | none =>
    exfalso
    have := List.find?_eq_none.mp hf (recAt rs r) (recAt_mem rs r hr)
    simp [hk] at this
  | some q =>
    have hq1 : q.1 = key := by simpa using List.find?_some hf
    have hqm : q ∈ rs := List.mem_of_find?_eq_some hf
    have hqe : q = recAt rs r :=
      eq_of_fst_eq_of_nodup rs hnd hqm (recAt_mem rs r hr) (by rw [hq1, hk])
    rw [hEntries, hf, hqe]
    rfl

theorem Entries_eq_nil_of_absent (rs : List (List Nat × List IndexEntry)) (key : List Nat)
    (habs : ∀ j, j < rs.length → (recAt rs j).1 ≠ key) :
    directIndex.Entries ⟨rs⟩ key = [] := by
  have hEntries : directIndex.Entries ⟨rs⟩ key =
      ((rs.find? (fun p => p.1 == key)).map Prod.snd).getD [] := rfl
  have hnone : rs.find? (fun p => p.1 == key) = none := by
    apply List.find?_eq_none.mpr
    intro q hq
    rcases List.mem_iff_getElem.mp hq with ⟨j, hj, rfl⟩
    have := habs j hj
    rw [recAt_eq_getElem rs j hj] at this
    simpa using this
  rw [hEntries, hnone]
  rfl

/-- The central refinement: over a well-formed serialized index, the
indirect view computes exactly the entries of the decoded direct index, for
every key including absent ones. -/
theorem indirect_Entries_eq (rs : List (List Nat × List IndexEntry))
    (hwf : ∀ p ∈ rs, RecWF p) (hs : KeysSorted rs) (key : List Nat) :
    (indirectIndex.UnmarshalBinary (encodeIndex rs)).Entries key =
      .ok (directIndex.Entries ⟨rs⟩ key) := by
  have hnd := nodup_of_keysSorted rs hs
  have hidx : indirectIndex.UnmarshalBinary (encodeIndex rs) =
      ⟨encodeIndex rs, offsetsOf rs⟩ := by
    unfold indirectIndex.UnmarshalBinary
    rw [scanOffsets_encodeIndex0 rs hwf]
  rw [hidx, indirectEntries_def]
  have hmono : ∀ a c, a ≤ c → c < (offsetsOf rs).length →
      probeFun (encodeIndex rs) (offsetsOf rs) key a = true →
      probeFun (encodeIndex rs) (offsetsOf rs) key c = true := by
    intro a c hac hcn hfa
    have hcn' : c < rs.length := by rwa [length_offsetsOf] at hcn
    have han' : a < rs.length := lt_of_le_of_lt hac hcn'
    rw [probeFun_eq rs hwf key a han'] at hfa
    rw [probeFun_eq rs hwf key c hcn']
    by_cases hEq : a = c
    · subst hEq
      exact hfa
    · have hlt := keys_lt_of_sorted rs hs a c (lt_of_le_of_ne hac hEq) hcn'
      rcases Bool.or_eq_true_iff.mp hfa with hfa | hfa
      · have : key = (recAt rs a).1 := by simpa using hfa
        rw [Bool.or_eq_true_iff]
        right
        rw [this]
        exact hlt
      · rw [Bool.or_eq_true_iff]
        right
        exact keyLt_trans hfa hlt
  obtain ⟨hle, hbelow, hfound⟩ :=
    sortSearch_spec (probeFun (encodeIndex rs) (offsetsOf rs) key) (offsetsOf rs).length hmono
  have habs_of_ge : (∀ j, j < rs.length → (recAt rs j).1 = key →
      ¬ j < sortSearch (offsetsOf rs).length (probeFun (encodeIndex rs) (offsetsOf rs) key)) := by
    intro j hj hjk hlt
    have hfj : probeFun (encodeIndex rs) (offsetsOf rs) key j = true := by
      rw [probeFun_eq rs hwf key j hj, hjk]
      simp
    rw [hbelow j hlt] at hfj
    exact Bool.false_ne_true hfj
  by_cases hr : sortSearch (offsetsOf rs).length (probeFun (encodeIndex rs) (offsetsOf rs) key) <
      (offsetsOf rs).length
  · have hrlen : sortSearch (offsetsOf rs).length
        (probeFun (encodeIndex rs) (offsetsOf rs) key) < rs.length := by
      rw [← length_offsetsOf rs]
      exact hr
    have hkeyr := readKey_at_offset rs hwf _ hrlen
    rw [if_pos hr]
    by_cases hkr : (recAt rs (sortSearch (offsetsOf rs).length
        (probeFun (encodeIndex rs) (offsetsOf rs) key))).1 = key
    · rw [if_neg (by rw [congrArg Prod.snd hkeyr]; exact fun hne => hne hkr)]
      have hre : readEntries ((encodeIndex rs).drop
          ((offsetsOf rs).getD (sortSearch (offsetsOf rs).length
            (probeFun (encodeIndex rs) (offsetsOf rs) key)) 0 +
           (readKey ((encodeIndex rs).drop ((offsetsOf rs).getD (sortSearch (offsetsOf rs).length
            (probeFun (encodeIndex rs) (offsetsOf rs) key)) 0))).1)) =
          .ok (2 + 28 * (recAt rs (sortSearch (offsetsOf rs).length
            (probeFun (encodeIndex rs) (offsetsOf rs) key))).2.length,
            (recAt rs (sortSearch (offsetsOf rs).length
              (probeFun (encodeIndex rs) (offsetsOf rs) key))).2) := by
        rw [congrArg Prod.fst hkeyr, ← List.drop_drop, drop_at_offset rs _ hrlen]
        exact readEntries_encodeRecord _ _ _
          (hwf _ (recAt_mem rs _ hrlen)).2.2.2 (hwf _ (recAt_mem rs _ hrlen)).2.2.1
      rw [hre, Entries_eq_of_found rs hnd key _ hrlen hkr]
    · rw [if_pos (by rw [congrArg Prod.snd hkeyr]; exact hkr)]
      have habs : ∀ j, j < rs.length → (recAt rs j).1 ≠ key := by
        intro j hj hjk
        have hge := habs_of_ge j hj hjk
        have hfr : probeFun (encodeIndex rs) (offsetsOf rs) key
            (sortSearch (offsetsOf rs).length (probeFun (encodeIndex rs) (offsetsOf rs) key)) =
            true := hfound hr
        rw [probeFun_eq rs hwf key _ hrlen] at hfr
        rcases Bool.or_eq_true_iff.mp hfr with hfr | hfr
        · have hkeq : key = (recAt rs (sortSearch (offsetsOf rs).length
              (probeFun (encodeIndex rs) (offsetsOf rs) key))).1 := by simpa using hfr
          exact hkr hkeq.symm
        · by_cases hjr : j = sortSearch (offsetsOf rs).length
              (probeFun (encodeIndex rs) (offsetsOf rs) key)
          · exact hkr (hjr ▸ hjk)
          · have hrj : sortSearch (offsetsOf rs).length
                (probeFun (encodeIndex rs) (offsetsOf rs) key) < j := by
              rcases Nat.lt_trichotomy j (sortSearch (offsetsOf rs).length
                (probeFun (encodeIndex rs) (offsetsOf rs) key)) with hc | hc | hc
              · exact absurd hc hge
              · exact absurd hc hjr
              · exact hc
            have hlt2 := keys_lt_of_sorted rs hs _ j hrj hj
            rw [hjk] at hlt2
            have := keyLt_trans hfr hlt2
            rw [keyLt_irrefl] at this
            exact Bool.false_ne_true this
      rw [Entries_eq_nil_of_absent rs key habs]
  · rw [if_neg hr]
    have habs : ∀ j, j < rs.length → (recAt rs j).1 ≠ key := by
      intro j hj hjk
      apply habs_of_ge j hj hjk
      have : sortSearch (offsetsOf rs).length (probeFun (encodeIndex rs) (offsetsOf rs) key) =
          (offsetsOf rs).length := by omega
      rw [this, length_offsetsOf]
      exact hj
    rw [Entries_eq_nil_of_absent rs key habs]

theorem length_flatten_u64 (xs : List Int) :
    ((xs.map (fun t => u64tob (toUint64 t))).flatten).length = 8 * xs.length := by
  induction xs with
  | nil => rfl
  | cons x xs ih =>
    simp only [List.map_cons, List.flatten_cons, List.length_append, ih, length_u64tob,
      List.length_cons]
    ring

theorem decodeWords_prefix (xs : List Int) (hx : ∀ x ∈ xs, In64 x) (extra : List Nat) :
    decodeWords ((xs.map (fun t => u64tob (toUint64 t))).flatten ++ extra) =
      xs ++ decodeWords extra := by
  induction xs with
  | nil => rfl
  | cons x xs ih =>
    have hx0 := hx x (List.mem_cons_self x xs)
    have hbuf : ((x :: xs).map (fun t => u64tob (toUint64 t))).flatten ++ extra =
        u64tob (toUint64 x) ++ ((xs.map (fun t => u64tob (toUint64 t))).flatten ++ extra) := by
      simp [List.append_assoc]
    rw [hbuf, decodeWords, dif_pos (by simp [length_u64tob])]
    rw [List.drop_left' (length_u64tob _), ih (fun y hy => hx y (List.mem_cons_of_mem x hy))]
    rw [toInt64_btou64_toUint64 x hx0.1 hx0.2]
    rfl

theorem decodeWords_exact (xs : List Int) (hx : ∀ x ∈ xs, In64 x) :
    decodeWords ((xs.map (fun t => u64tob (toUint64 t))).flatten) = xs := by
  have := decodeWords_prefix xs hx []
  simpa [show decodeWords [] = [] from by rw [decodeWords]; simp] using this

theorem zipWith_mk_self (vs : List Value) (tail : List Int) :
    List.zipWith Value.mk (vs.map (fun v => v.time)) (vs.map (fun v => v.value) ++ tail) = vs := by
  induction vs with
  | nil => rfl
  | cons v vs ih => simp [ih]

theorem ValuesEncode_eq (vs : List Value) (h : vs ≠ []) :
    ValuesEncode vs = .ok (blockBytes vs) := by
  cases vs with
  | nil => exact absurd rfl h
  | cons v tl => rfl

theorem length_blockBytes (vs : List Value) :
    (blockBytes vs).length =
      9 + (putUvarint (8 * vs.length)).length + 8 * vs.length + 8 * vs.length := by
  simp only [blockBytes, packBlockHeader, packBlock, encodeTimestamps, encodeScalars,
    List.length_append, length_u64tob, List.length_cons, List.length_nil,
    length_flatten_u64, List.length_map]
  omega

/-- Decoding a block, with arbitrary trailing bytes after it (the reader
hands the decoder everything its oversized buffer captured), recovers
exactly the encoded values. -/
theorem DecodeBlock_blockBytes (vs : List Value) (hne : vs ≠ [])
    (hr : ∀ v ∈ vs, In64 v.time ∧ In64 v.value) (extra : List Nat) :
    DecodeBlock (blockBytes vs ++ extra) = .ok vs := by
  have hlen : (blockBytes vs).length ≥ 10 := by
    rw [length_blockBytes]
    have : vs.length ≥ 1 := by
      cases vs
      · exact absurd rfl hne
      · simp
    omega
  have hassoc : blockBytes vs ++ extra =
      u64tob (toUint64 ((vs.head?.map (fun v => v.time)).getD 0)) ++
        ([BlockScalar] ++ (packBlock (encodeTimestamps (vs.map (fun x => x.time)))
          (encodeScalars (vs.map (fun x => x.value))) ++ extra)) := by
    simp [blockBytes, packBlockHeader, List.append_assoc]
  rw [DecodeBlock, if_neg (by rw [List.length_append]; omega)]
  have htag : (blockBytes vs ++ extra).getD 8 0 = BlockScalar := by
    rw [hassoc, List.getD_append_right _ _ _ _ (by rw [length_u64tob])]
    rw [length_u64tob]
    rfl
  rw [if_neg (by rw [htag]; exact fun hc => hc rfl)]
  have hdrop9 : (blockBytes vs ++ extra).drop 9 =
      packBlock (encodeTimestamps (vs.map (fun x => x.time)))
        (encodeScalars (vs.map (fun x => x.value))) ++ extra := by
    rw [hassoc, show (9 : Nat) = 8 + 1 from rfl, ← List.drop_drop,
      List.drop_left' (length_u64tob _)]
    rfl
  rw [hdrop9]
  have hpl : packBlock (encodeTimestamps (vs.map (fun x => x.time)))
      (encodeScalars (vs.map (fun x => x.value))) ++ extra =
      putUvarint (encodeTimestamps (vs.map (fun x => x.time))).length ++
        (encodeTimestamps (vs.map (fun x => x.time)) ++
          (encodeScalars (vs.map (fun x => x.value)) ++ extra)) := by
    simp [packBlock, List.append_assoc]
  have hunpack : unpackBlock (packBlock (encodeTimestamps (vs.map (fun x => x.time)))
      (encodeScalars (vs.map (fun x => x.value))) ++ extra) =
      (encodeTimestamps (vs.map (fun x => x.time)),
       encodeScalars (vs.map (fun x => x.value)) ++ extra) := by
    rw [unpackBlock, hpl, readUvarint_putUvarint]
    have hdropuv : (putUvarint (encodeTimestamps (vs.map (fun x => x.time))).length ++
        (encodeTimestamps (vs.map (fun x => x.time)) ++
          (encodeScalars (vs.map (fun x => x.value)) ++ extra))).drop
          (putUvarint (encodeTimestamps (vs.map (fun x => x.time))).length).length =
        encodeTimestamps (vs.map (fun x => x.time)) ++
          (encodeScalars (vs.map (fun x => x.value)) ++ extra) := List.drop_left' rfl
    show ((_ : List Nat × List Nat)) = _
    refine Prod.ext ?_ ?_
    · show (((putUvarint (encodeTimestamps (vs.map (fun x => x.time))).length ++
        (encodeTimestamps (vs.map (fun x => x.time)) ++
          (encodeScalars (vs.map (fun x => x.value)) ++ extra))).drop
          (putUvarint (encodeTimestamps (vs.map (fun x => x.time))).length).length).take
          (encodeTimestamps (vs.map (fun x => x.time))).length) = _
      rw [hdropuv]
      exact List.take_left' rfl
    · show ((putUvarint (encodeTimestamps (vs.map (fun x => x.time))).length ++
        (encodeTimestamps (vs.map (fun x => x.time)) ++
          (encodeScalars (vs.map (fun x => x.value)) ++ extra))).drop
          ((putUvarint (encodeTimestamps (vs.map (fun x => x.time))).length).length +
            (encodeTimestamps (vs.map (fun x => x.time))).length)) = _
      rw [← List.drop_drop, hdropuv]
      exact List.drop_left' rfl
  have hts : decodeWords (encodeTimestamps (vs.map (fun x => x.time))) =
      vs.map (fun x => x.time) := by
    rw [encodeTimestamps]
    exact decodeWords_exact _ (by
      intro x hxm
      rcases List.mem_map.mp hxm with ⟨v, hv, rfl⟩
      exact (hr v hv).1)
  have hvs : decodeWords (encodeScalars (vs.map (fun x => x.value)) ++ extra) =
      vs.map (fun x => x.value) ++ decodeWords extra := by
    rw [encodeScalars]
    exact decodeWords_prefix _ (by
      intro x hxm
      rcases List.mem_map.mp hxm with ⟨v, hv, rfl⟩
      exact (hr v hv).2) extra
  simp only [hunpack, hts, hvs, zipWith_mk_self]

theorem Write_eq_writeStep (w : tsmWriter) (key : List Nat) (vs : List Value)
    (h : vs ≠ []) : w.Write key vs = .ok (writeStep w (key, vs)) := by
  cases vs with
  | nil => exact absurd rfl h
  | cons v tl => rfl

theorem runWrites_eq_foldl (ws : List (List Nat × List Value))
    (h : ∀ p ∈ ws, p.2 ≠ []) :
    runWrites ws = .ok (ws.foldl writeStep NewTSMWriter) := by
  suffices hgen : ∀ w0 : tsmWriter,
      (ws.foldlM (fun w p => w.Write p.1 p.2) w0 : Except GoErr tsmWriter) =
        .ok (ws.foldl writeStep w0) by
    exact hgen NewTSMWriter
  induction ws with
  | nil => intro w0; rfl
  | cons p rest ih =>
    intro w0
    have hp := h p (List.mem_cons_self p rest)
    rw [List.foldlM_cons, show (w0.Write p.1 p.2) = .ok (writeStep w0 (p.1, p.2)) from
      Write_eq_writeStep w0 p.1 p.2 hp]
    show (rest.foldlM (fun w p => w.Write p.1 p.2) (writeStep w0 (p.1, p.2)) :
      Except GoErr tsmWriter) = _
    rw [ih (fun q hq => h q (List.mem_cons_of_mem p hq)) (writeStep w0 (p.1, p.2))]
    rfl

theorem foldl_writeStep_out (ws : List (List Nat × List Value)) : ∀ w0 : tsmWriter,
    (ws.foldl writeStep w0).out = w0.out ++ expBlocks ws := by
  induction ws with
  | nil => intro w0; simp [expBlocks]
  | cons p rest ih =>
    intro w0
    rw [List.foldl_cons, ih]
    simp [writeStep, expBlocks, List.append_assoc]

theorem foldl_writeStep_n (ws : List (List Nat × List Value)) : ∀ w0 : tsmWriter,
    (ws.foldl writeStep w0).n = w0.n + (expBlocks ws).length := by
  induction ws with
  | nil => intro w0; simp [expBlocks]
  | cons p rest ih =>
    intro w0
    rw [List.foldl_cons, ih]
    simp only [writeStep, expBlocks, List.map_cons, List.flatten_cons, List.length_append]
    omega

theorem addToBlocks_find? (bs : List (List Nat × List IndexEntry)) (key : List Nat)
    (es : List IndexEntry) (k : List Nat) :
    ((((addToBlocks bs key es).find? (fun p => p.1 == k)).map Prod.snd).getD []) =
      if key = k then ((((bs.find? (fun p => p.1 == k)).map Prod.snd).getD [])) ++ es
      else ((((bs.find? (fun p => p.1 == k)).map Prod.snd).getD [])) := by
  induction bs with
  | nil =>
    show ((([(key, es)].find? (fun p => p.1 == k)).map Prod.snd).getD []) = _
    by_cases hkk : key = k
    · subst hkk
      rw [List.find?_cons_of_pos _ (by simp)]
      simp
    · rw [List.find?_cons_of_neg _ (by simp [hkk]), if_neg hkk]
  | cons q bs ih =>
    show ((((addToBlocks ((q.1, q.2) :: bs) key es).find? (fun p => p.1 == k)).map
      Prod.snd).getD []) = _
    rw [addToBlocks]
    by_cases hq : q.1 = key
    · rw [if_pos hq]
      by_cases hqk : q.1 = k
      · rw [List.find?_cons_of_pos _ (by simp [hqk]),
          List.find?_cons_of_pos _ (by simp [hqk]), if_pos (hq ▸ hqk)]
        rfl
      · rw [List.find?_cons_of_neg _ (by simp [hqk]), List.find?_cons_of_neg _ (by simp [hqk]),
          if_neg (fun hc => hqk (hq.trans hc))]
    · rw [if_neg hq]
      by_cases hqk : q.1 = k
      · rw [List.find?_cons_of_pos _ (by simp [hqk]), List.find?_cons_of_pos _ (by simp [hqk]),
          if_neg (fun hc => hq (hqk.trans hc.symm))]
      · rw [List.find?_cons_of_neg _ (by simp [hqk]), List.find?_cons_of_neg _ (by simp [hqk])]
        exact ih

theorem Add_Entries (d : directIndex) (key : List Nat) (minT maxT : Int) (off : Int)
    (size : Nat) (k : List Nat) :
    (d.Add key minT maxT off size).Entries k =
      if key = k then d.Entries k ++ [⟨minT, maxT, off, size⟩] else d.Entries k := by
  have h := addToBlocks_find? d.blocks key [⟨minT, maxT, off, size⟩] k
  exact h

theorem foldl_writeStep_Entries (ws : List (List Nat × List Value)) :
    ∀ (w0 : tsmWriter) (k : List Nat),
    (ws.foldl writeStep w0).index.Entries k = w0.index.Entries k ++ expEntries ws w0.n k := by
  induction ws with
  | nil => intro w0 k; simp [expEntries]
  | cons p rest ih =>
    intro w0 k
    rw [List.foldl_cons, ih]
    show ((w0.index.Add p.1 (headTime p.2) (lastTime p.2) (w0.n : Int)
        ((diskBlock p.2).length % 2 ^ 32)).Entries k) ++
        expEntries rest (w0.n + (diskBlock p.2).length) k = _
    rw [Add_Entries]
    by_cases hk : p.1 = k
    · rw [if_pos hk, show expEntries ((p.1, p.2) :: rest) w0.n k =
        entryFor p.2 w0.n :: expEntries rest (w0.n + (diskBlock p.2).length) k from by
          rw [expEntries, if_pos hk]]
      simp [entryFor, List.append_assoc]
    · rw [if_neg hk, show expEntries ((p.1, p.2) :: rest) w0.n k =
        expEntries rest (w0.n + (diskBlock p.2).length) k from by
          rw [expEntries, if_neg hk]]

theorem addToBlocks_map_fst (bs : List (List Nat × List IndexEntry)) (key : List Nat)
    (es : List IndexEntry) :
    (addToBlocks bs key es).map Prod.fst =
      if key ∈ bs.map Prod.fst then bs.map Prod.fst else bs.map Prod.fst ++ [key] := by
  induction bs with
  | nil => simp [addToBlocks]
  | cons q bs ih =>
    show ((addToBlocks ((q.1, q.2) :: bs) key es).map Prod.fst) = _
    rw [addToBlocks]
    by_cases hq : q.1 = key
    · rw [if_pos hq]
      have : key ∈ (q :: bs).map Prod.fst := by
        rw [List.map_cons, hq]
        exact List.mem_cons_self key _
      rw [if_pos this]
      rfl
    · rw [if_neg hq, List.map_cons, ih, List.map_cons]
      have hmem : (key ∈ q.1 :: bs.map Prod.fst) ↔ (key ∈ bs.map Prod.fst) := by
        simp [List.mem_cons, (Ne.symm hq : key ≠ q.1)]
      by_cases hk : key ∈ bs.map Prod.fst
      · rw [if_pos hk, if_pos (hmem.mpr hk)]
      · rw [if_neg hk, if_neg (fun hc => hk (hmem.mp hc))]
        rfl

theorem addToBlocks_nodup (bs : List (List Nat × List IndexEntry)) (key : List Nat)
    (es : List IndexEntry) (h : (bs.map Prod.fst).Nodup) :
    ((addToBlocks bs key es).map Prod.fst).Nodup := by
  rw [addToBlocks_map_fst]
  by_cases hk : key ∈ bs.map Prod.fst
  · rw [if_pos hk]
    exact h
  · rw [if_neg hk, List.nodup_append]
    refine ⟨h, List.nodup_singleton key, ?_⟩
    intro a ha hc
    rw [List.mem_singleton] at hc
    subst hc
    exact hk ha

theorem addToBlocks_fst_subset (bs : List (List Nat × List IndexEntry)) (key : List Nat)
    (es : List IndexEntry) :
    ∀ x ∈ (addToBlocks bs key es).map Prod.fst, x ∈ bs.map Prod.fst ∨ x = key := by
  intro x hx
  rw [addToBlocks_map_fst] at hx
  by_cases hk : key ∈ bs.map Prod.fst
  · rw [if_pos hk] at hx
    exact Or.inl hx
  · rw [if_neg hk] at hx
    rcases List.mem_append.mp hx with hx | hx
    · exact Or.inl hx
    · simp only [List.mem_cons, List.not_mem_nil, or_false] at hx
      exact Or.inr hx

theorem foldl_writeStep_nodup (ws : List (List Nat × List Value)) : ∀ w0 : tsmWriter,
    (w0.index.blocks.map Prod.fst).Nodup →
    ((ws.foldl writeStep w0).index.blocks.map Prod.fst).Nodup := by
  induction ws with
  | nil => intro w0 h; exact h
  | cons p rest ih =>
    intro w0 h
    rw [List.foldl_cons]
    exact ih _ (addToBlocks_nodup _ _ _ h)

theorem foldl_writeStep_fst_subset (ws : List (List Nat × List Value)) : ∀ w0 : tsmWriter,
    ∀ x ∈ ((ws.foldl writeStep w0).index.blocks.map Prod.fst),
      x ∈ w0.index.blocks.map Prod.fst ∨ x ∈ ws.map Prod.fst := by
  induction ws with
  | nil => intro w0 x hx; exact Or.inl hx
  | cons p rest ih =>
    intro w0 x hx
    rw [List.foldl_cons] at hx
    rcases ih _ x hx with hx' | hx'
    · rcases addToBlocks_fst_subset _ _ _ x hx' with hx'' | hx''
      · exact Or.inl hx''
      · refine Or.inr ?_
        rw [hx'']
        exact List.mem_map_of_mem Prod.fst (List.mem_cons_self p rest)
    · rw [List.map_cons]
      exact Or.inr (List.mem_cons_of_mem _ hx')

theorem Entries_of_mem_blocks (d : directIndex) (hnd : (d.blocks.map Prod.fst).Nodup)
    {p : List Nat × List IndexEntry} (hp : p ∈ d.blocks) : d.Entries p.1 = p.2 := by
  cases hf : d.blocks.find? (fun q => q.1 == p.1) with
  | none =>
    exfalso
    have := List.find?_eq_none.mp hf p hp
    simp at this
  | some q =>
    have hq1 : q.1 = p.1 := by simpa using List.find?_some hf
    have hqm : q ∈ d.blocks := List.mem_of_find?_eq_some hf
    have hqe : q = p := eq_of_fst_eq_of_nodup d.blocks hnd hqm hp hq1
    show (((d.blocks.find? (fun q => q.1 == p.1)).map Prod.snd).getD []) = p.2
    rw [hf, hqe]
    rfl

theorem length_expEntries_le (ws : List (List Nat × List Value)) :
    ∀ (pos : Nat) (k : List Nat), (expEntries ws pos k).length ≤ ws.length := by
  induction ws with
  | nil => intro pos k; simp [expEntries]
  | cons p rest ih =>
    intro pos k
    show (expEntries ((p.1, p.2) :: rest) pos k).length ≤ _
    rw [expEntries]
    by_cases hk : p.1 = k
    · rw [if_pos hk]
      have := ih (pos + (diskBlock p.2).length) k
      simp only [List.length_cons]
      omega
    · rw [if_neg hk]
      have := ih (pos + (diskBlock p.2).length) k
      simp only [List.length_cons]
      omega

theorem expEntries_mem_spec (ws : List (List Nat × List Value)) :
    ∀ (pos : Nat) (k : List Nat), ∀ e ∈ expEntries ws pos k,
      ∃ p ∈ ws, ∃ q : Nat, pos ≤ q ∧ q + (diskBlock p.2).length ≤ pos + (expBlocks ws).length ∧
        e = entryFor p.2 q ∧ p.1 = k := by
  induction ws with
  | nil => intro pos k e he; simp [expEntries] at he
  | cons p rest ih =>
    obtain ⟨pk, pv⟩ := p
    intro pos k e he
    have hlen : (expBlocks ((pk, pv) :: rest)).length =
        (diskBlock pv).length + (expBlocks rest).length := by
      simp [expBlocks]
    rw [show expEntries ((pk, pv) :: rest) pos k = (if pk = k then
        entryFor pv pos :: expEntries rest (pos + (diskBlock pv).length) k
        else expEntries rest (pos + (diskBlock pv).length) k) from rfl] at he
    by_cases hk : pk = k
    · rw [if_pos hk] at he
      rcases List.mem_cons.mp he with rfl | he2
      · refine ⟨(pk, pv), List.mem_cons_self _ rest, pos, le_refl pos, ?_, rfl, hk⟩
        show pos + (diskBlock pv).length ≤ pos + (expBlocks ((pk, pv) :: rest)).length
        omega
      · rcases ih (pos + (diskBlock pv).length) k e he2 with ⟨q, hqmem, o, ho1, ho2, ho3, ho4⟩
        exact ⟨q, List.mem_cons_of_mem _ hqmem, o, by omega, by omega, ho3, ho4⟩
    · rw [if_neg hk] at he
      rcases ih (pos + (diskBlock pv).length) k e he with ⟨q, hqmem, o, ho1, ho2, ho3, ho4⟩
      exact ⟨q, List.mem_cons_of_mem _ hqmem, o, by omega, by omega, ho3, ho4⟩

theorem expEntries_minTimes (ws : List (List Nat × List Value)) :
    ∀ (pos : Nat) (k : List Nat),
      (expEntries ws pos k).map (fun e => e.MinTime) = keyTimes ws k := by
  induction ws with
  | nil => intro pos k; rfl
  | cons p rest ih =>
    intro pos k
    show (expEntries ((p.1, p.2) :: rest) pos k).map (fun e => e.MinTime) =
      keyTimes ((p.1, p.2) :: rest) k
    rw [expEntries, keyTimes]
    by_cases hk : p.1 = k
    · rw [if_pos hk, if_pos hk, List.map_cons, ih]
      rfl
    · rw [if_neg hk, if_neg hk, ih]

theorem sortedBy_of_minTimes {es : List IndexEntry}
    (h : (es.map (fun e => e.MinTime)).Pairwise (fun a b => a < b)) :
    SortedBy indexEntryLess es := by
  rw [List.pairwise_map] at h
  exact h.imp (fun hab => by
    simp only [indexEntryLess, decide_eq_false_iff_not]
    omega)

/-! ## Reading a well-formed file back -/

theorem length_header : ((u32tob MagicNumber ++ [Version]) : List Nat).length = 5 := by
  rw [List.length_append, length_u32tob]
  rfl

theorem tsmReaderInit_layout (blocks idx : List Nat) (dres : directIndex)
    (hlen : 5 + blocks.length < 2 ^ 63)
    (hidx : directIndex.UnmarshalBinary NewDirectIndex idx = .ok dres) :
    tsmReaderInit ((u32tob MagicNumber ++ [Version]) ++ blocks ++ idx ++
        u64tob (5 + blocks.length)) =
      .ok ⟨(u32tob MagicNumber ++ [Version]) ++ blocks ++ idx ++ u64tob (5 + blocks.length),
        5 + blocks.length, 5 + blocks.length + idx.length, dres⟩ := by
  have hflen : ((u32tob MagicNumber ++ [Version]) ++ blocks ++ idx ++
      u64tob (5 + blocks.length)).length = 5 + blocks.length + idx.length + 8 := by
    simp only [List.length_append, length_u32tob, List.length_singleton, length_u64tob]
  have hfoot : ((u32tob MagicNumber ++ [Version]) ++ blocks ++ idx ++
      u64tob (5 + blocks.length)).drop (((u32tob MagicNumber ++ [Version]) ++ blocks ++ idx ++
        u64tob (5 + blocks.length)).length - 8) = u64tob (5 + blocks.length) := by
    rw [hflen, show ((u32tob MagicNumber ++ [Version]) ++ blocks ++ idx ++
        u64tob (5 + blocks.length)) = ((u32tob MagicNumber ++ [Version]) ++ blocks ++ idx) ++
        u64tob (5 + blocks.length) from by simp [List.append_assoc]]
    apply List.drop_left'
    simp only [List.length_append, length_u32tob, List.length_singleton]
    omega
  have hfootv : btou64 (((u32tob MagicNumber ++ [Version]) ++ blocks ++ idx ++
      u64tob (5 + blocks.length)).drop (((u32tob MagicNumber ++ [Version]) ++ blocks ++ idx ++
        u64tob (5 + blocks.length)).length - 8)) = 5 + blocks.length := by
    rw [hfoot]
    have := btou64_u64tob (5 + blocks.length) []
    rw [List.append_nil] at this
    rw [this, Nat.mod_eq_of_lt (by omega)]
  rw [tsmReaderInit, if_neg (by rw [hflen]; omega), hfootv, if_neg (by omega),
    if_neg (by rw [hflen]; omega)]
  have hslice : (((u32tob MagicNumber ++ [Version]) ++ blocks ++ idx ++
      u64tob (5 + blocks.length)).drop (5 + blocks.length)).take
      ((((u32tob MagicNumber ++ [Version]) ++ blocks ++ idx ++
        u64tob (5 + blocks.length)).length - 8) - (5 + blocks.length)) = idx := by
    rw [hflen, show ((u32tob MagicNumber ++ [Version]) ++ blocks ++ idx ++
        u64tob (5 + blocks.length)) = ((u32tob MagicNumber ++ [Version]) ++ blocks) ++
        (idx ++ u64tob (5 + blocks.length)) from by simp [List.append_assoc]]
    rw [List.drop_left' (by
      simp only [List.length_append, length_u32tob, List.length_singleton])]
    rw [show 5 + blocks.length + idx.length + 8 - 8 - (5 + blocks.length) = idx.length from
      by omega]
    exact List.take_left' rfl
  rw [hflen] at hslice ⊢
  rw [show 5 + blocks.length + idx.length + 8 - 8 = 5 + blocks.length + idx.length from by omega]
    at hslice ⊢
  rw [hslice, hidx]

theorem fetchBlock_diskBlock (pre post : List Nat) (vs : List Value) (hne : vs ≠ [])
    (hr : ∀ v ∈ vs, In64 v.time ∧ In64 v.value) (hsz : (diskBlock vs).length < 2 ^ 32) :
    fetchBlock (pre ++ (diskBlock vs ++ post)) (entryFor vs pre.length) = .ok vs := by
  have hoffnat : ((entryFor vs pre.length).Offset).toNat = pre.length := by
    simp [entryFor]
  have hoff : ¬ ((entryFor vs pre.length).Offset < 0) := by
    simp [entryFor]
  have hdb : 14 ≤ (diskBlock vs).length := by
    have h1 : (blockBytes vs).length ≥ 10 := by
      rw [length_blockBytes]
      have : vs.length ≥ 1 := by
        cases vs
        · exact absurd rfl hne
        · simp
      omega
    simp only [diskBlock, List.length_append, length_u32tob]
    omega
  have hflen : (pre ++ (diskBlock vs ++ post)).length =
      pre.length + ((diskBlock vs).length + post.length) := by
    simp
  have havail : ¬ ((pre ++ (diskBlock vs ++ post)).length ≤ pre.length) := by
    rw [hflen]
    omega
  rw [fetchBlock, if_neg hoff, hoffnat, if_neg havail]
  have hsize : (entryFor vs pre.length).Size = (diskBlock vs).length := by
    simp only [entryFor]
    exact Nat.mod_eq_of_lt hsz
  have hdropoff : (pre ++ (diskBlock vs ++ post)).drop pre.length = diskBlock vs ++ post :=
    List.drop_left' rfl
  rw [hdropoff, hsize, hflen]
  have hn : min (max (16 * 1024) (diskBlock vs).length)
      (pre.length + ((diskBlock vs).length + post.length) - pre.length) ≥
      (diskBlock vs).length := by
    omega
  have htake : (diskBlock vs ++ post).take (min (max (16 * 1024) (diskBlock vs).length)
      (pre.length + ((diskBlock vs).length + post.length) - pre.length)) =
      diskBlock vs ++ post.take (min (max (16 * 1024) (diskBlock vs).length)
        (pre.length + ((diskBlock vs).length + post.length) - pre.length) -
        (diskBlock vs).length) := by
    rw [List.take_append_eq_append_take, List.take_all_of_le hn]
  rw [htake]
  have hdrop4 : ((diskBlock vs ++ post.take (min (max (16 * 1024) (diskBlock vs).length)
      (pre.length + ((diskBlock vs).length + post.length) - pre.length) -
      (diskBlock vs).length))).drop 4 =
      blockBytes vs ++ post.take (min (max (16 * 1024) (diskBlock vs).length)
        (pre.length + ((diskBlock vs).length + post.length) - pre.length) -
        (diskBlock vs).length) := by
    rw [show diskBlock vs ++ post.take (min (max (16 * 1024) (diskBlock vs).length)
        (pre.length + ((diskBlock vs).length + post.length) - pre.length) -
        (diskBlock vs).length) = u32tob (crc32 (blockBytes vs)) ++
        (blockBytes vs ++ post.take (min (max (16 * 1024) (diskBlock vs).length)
          (pre.length + ((diskBlock vs).length + post.length) - pre.length) -
          (diskBlock vs).length)) from by simp [diskBlock, List.append_assoc]]
    exact List.drop_left' (length_u32tob _)
  rw [hdrop4]
  exact DecodeBlock_blockBytes vs hne hr _

theorem readAllLoop_expEntries (ws : List (List Nat × List Value))
    (hc : ∀ p ∈ ws, p.2 ≠ [] ∧ (∀ v ∈ p.2, In64 v.time ∧ In64 v.value) ∧
      (diskBlock p.2).length < 2 ^ 32) :
    ∀ (pre post : List Nat) (k : List Nat),
      readAllLoop (pre ++ (expBlocks ws ++ post)) (expEntries ws pre.length k) =
        .ok (valuesFor ws k) := by
  induction ws with
  | nil => intro pre post k; rfl
  | cons p rest ih =>
    obtain ⟨pk, pv⟩ := p
    intro pre post k
    obtain ⟨hne, hr, hsz⟩ := hc (pk, pv) (List.mem_cons_self _ rest)
    have hrest := fun q hq => hc q (List.mem_cons_of_mem _ hq)
    have hsplit : pre ++ (expBlocks ((pk, pv) :: rest) ++ post) =
        pre ++ (diskBlock pv ++ (expBlocks rest ++ post)) := by
      simp [expBlocks, List.append_assoc]
    have hsplit2 : pre ++ (expBlocks ((pk, pv) :: rest) ++ post) =
        (pre ++ diskBlock pv) ++ (expBlocks rest ++ post) := by
      simp [expBlocks, List.append_assoc]
    have hfetch : fetchBlock (pre ++ (expBlocks ((pk, pv) :: rest) ++ post))
        (entryFor pv pre.length) = .ok pv := by
      rw [hsplit]
      exact fetchBlock_diskBlock pre (expBlocks rest ++ post) pv hne hr hsz
    have hlenpre : (pre ++ diskBlock pv).length = pre.length + (diskBlock pv).length := by
      simp
    have htail : readAllLoop (pre ++ (expBlocks ((pk, pv) :: rest) ++ post))
        (expEntries rest (pre.length + (diskBlock pv).length) k) = .ok (valuesFor rest k) := by
      rw [hsplit2, ← hlenpre]
      exact ih hrest (pre ++ diskBlock pv) post k
    rw [show expEntries ((pk, pv) :: rest) pre.length k = (if pk = k then
        entryFor pv pre.length :: expEntries rest (pre.length + (diskBlock pv).length) k
        else expEntries rest (pre.length + (diskBlock pv).length) k) from rfl]
    rw [show valuesFor ((pk, pv) :: rest) k = (if pk = k then pv ++ valuesFor rest k
        else valuesFor rest k) from rfl]
    by_cases hk : pk = k
    · rw [if_pos hk, if_pos hk, readAllLoop, hfetch, htail]
      rfl
    · rw [if_neg hk, if_neg hk, htail]

theorem keyTimes_nil_of_not_mem (ws : List (List Nat × List Value)) (k : List Nat)
    (h : k ∉ ws.map Prod.fst) : keyTimes ws k = [] := by
  induction ws with
  | nil => rfl
  | cons p rest ih =>
    rw [List.map_cons] at h
    show keyTimes ((p.1, p.2) :: rest) k = []
    rw [keyTimes, if_neg ?_]
    · exact ih (fun hc => h (List.mem_cons_of_mem _ hc))
    · intro hc
      exact h (by rw [← hc]; exact List.mem_cons_self p.1 _)

theorem WContract_sorted (ws : List (List Nat × List Value)) (h : WContract ws) :
    ∀ k, (keyTimes ws k).Pairwise (fun a b => a < b) := by
  intro k
  by_cases hk : k ∈ ws.map Prod.fst
  · exact h.2.2.2 k hk
  · rw [keyTimes_nil_of_not_mem ws k hk]
    exact List.Pairwise.nil

theorem headTime_In64 (vs : List Value) (h : vs ≠ [])
    (hall : ∀ v ∈ vs, In64 v.time ∧ In64 v.value) : In64 (headTime vs) := by
  cases vs with
  | nil => exact absurd rfl h
  | cons v tl =>
    show In64 ((((v :: tl).head?).map (fun v => v.time)).getD 0)
    simp only [List.head?_cons, Option.map_some', Option.getD_some]
    exact (hall v (List.mem_cons_self v tl)).1

theorem lastTime_In64 (vs : List Value) (h : vs ≠ [])
    (hall : ∀ v ∈ vs, In64 v.time ∧ In64 v.value) : In64 (lastTime vs) := by
  rw [lastTime, List.getLast?_eq_getLast vs h]
  simp only [Option.map_some', Option.getD_some]
  exact (hall _ (List.getLast_mem h)).1

theorem entryFor_InRange (vs : List Value) (q : Nat) (hne : vs ≠ [])
    (hall : ∀ v ∈ vs, In64 v.time ∧ In64 v.value) (hq : q < 2 ^ 63) :
    (entryFor vs q).InRange := by
  obtain ⟨h1, h2⟩ := headTime_In64 vs hne hall
  obtain ⟨h3, h4⟩ := lastTime_In64 vs hne hall
  refine ⟨h1, h2, h3, h4, ?_, ?_, ?_⟩
  · show -(2 ^ 63 : Int) ≤ (q : Int)
    omega
  · show ((q : Nat) : Int) < 2 ^ 63
    omega
  · show (diskBlock vs).length % 2 ^ 32 < 2 ^ 32
    exact Nat.mod_lt _ (by norm_num)

theorem final_index_Entries (ws : List (List Nat × List Value)) (k : List Nat) :
    (ws.foldl writeStep NewTSMWriter).index.Entries k = expEntries ws 5 k := by
  have := foldl_writeStep_Entries ws NewTSMWriter k
  simpa [NewTSMWriter, NewDirectIndex, directIndex.Entries] using this

theorem final_index_wf (ws : List (List Nat × List Value)) (h : WContract ws) :
    DirWF (ws.foldl writeStep NewTSMWriter).index := by
  obtain ⟨hper, hcount, hfile, _⟩ := h
  have hnd : ((ws.foldl writeStep NewTSMWriter).index.blocks.map Prod.fst).Nodup :=
    foldl_writeStep_nodup ws NewTSMWriter (by simp [NewTSMWriter, NewDirectIndex])
  refine ⟨hnd, ?_⟩
  intro p hp
  have hkey : p.1 ∈ ws.map Prod.fst := by
    rcases foldl_writeStep_fst_subset ws NewTSMWriter p.1
        (List.mem_map_of_mem Prod.fst hp) with hc | hc
    · simp [NewTSMWriter, NewDirectIndex] at hc
    · exact hc
  rcases List.mem_map.mp hkey with ⟨q, hq, hqk⟩
  obtain ⟨_, _, _, hklen, hkbytes⟩ := hper q hq
  have hentries : p.2 = expEntries ws 5 p.1 := by
    rw [← final_index_Entries ws p.1,
      Entries_of_mem_blocks (ws.foldl writeStep NewTSMWriter).index hnd hp]
  refine ⟨by rw [← hqk]; exact hklen, by rw [← hqk]; exact hkbytes, ?_, ?_⟩
  · rw [hentries]
    calc (expEntries ws 5 p.1).length ≤ ws.length := length_expEntries_le ws 5 p.1
      _ < 2 ^ 16 := hcount
  · intro e he
    rw [hentries] at he
    rcases expEntries_mem_spec ws 5 p.1 e he with ⟨w, hw, o, ho1, ho2, ho3, _⟩
    obtain ⟨hne, hall, _, _, _⟩ := hper w hw
    have hdbpos : 1 ≤ (diskBlock w.2).length := by
      simp only [diskBlock, List.length_append, length_u32tob]
      omega
    rw [ho3]
    exact entryFor_InRange w.2 o hne hall (by omega)

theorem goSortEntries_expEntries (ws : List (List Nat × List Value)) (pos : Nat)
    (k : List Nat) (hp : (keyTimes ws k).Pairwise (fun a b => a < b)) :
    goSortEntries (expEntries ws pos k) = expEntries ws pos k := by
  apply goSortBy_of_sorted
  apply sortedBy_of_minTimes
  rw [expEntries_minTimes ws pos k]
  exact hp

theorem close_out (ws : List (List Nat × List Value)) :
    ((ws.foldl writeStep NewTSMWriter).Close).out =
      (u32tob MagicNumber ++ [Version]) ++ expBlocks ws ++
        (ws.foldl writeStep NewTSMWriter).index.MarshalBinary ++
        u64tob (5 + (expBlocks ws).length) := by
  show (ws.foldl writeStep NewTSMWriter).out ++
      (ws.foldl writeStep NewTSMWriter).index.MarshalBinary ++
      u64tob (ws.foldl writeStep NewTSMWriter).n = _
  rw [foldl_writeStep_out ws NewTSMWriter, foldl_writeStep_n ws NewTSMWriter]
  rfl

/-- The full write/read round trip: after any contract-respecting write
session and a close, `ReadAll` returns, for every key, exactly the
concatenation in write order of the values written under that key. -/
theorem roundTrip (ws : List (List Nat × List Value)) (h : WContract ws) :
    ∃ w : tsmWriter, runWrites ws = .ok w ∧
      ∃ r : tsmReader, NewTSMReader w.Close.out = .ok r ∧
        ∀ k : List Nat, r.ReadAll k = .ok (valuesFor ws k) := by
  have hsorted := WContract_sorted ws h
  obtain ⟨hper, hcount, hfile, _⟩ := h
  refine ⟨ws.foldl writeStep NewTSMWriter,
    runWrites_eq_foldl ws (fun p hp => (hper p hp).1), ?_⟩
  have hwf : DirWF (ws.foldl writeStep NewTSMWriter).index :=
    final_index_wf ws ⟨hper, hcount, hfile, fun k _ => hsorted k⟩
  have hdec := UnmarshalBinary_MarshalBinary (ws.foldl writeStep NewTSMWriter).index hwf
  have hinit := tsmReaderInit_layout (expBlocks ws)
    ((ws.foldl writeStep NewTSMWriter).index.MarshalBinary)
    ⟨(ws.foldl writeStep NewTSMWriter).index.marshalRecords⟩ hfile hdec
  refine ⟨_, by rw [NewTSMReader, close_out ws]; exact hinit, ?_⟩
  intro k
  show readAllLoop _ ((directIndex.Entries
      ⟨(ws.foldl writeStep NewTSMWriter).index.marshalRecords⟩) k) = _
  rw [marshalRecords_Entries_total, marshalState_Entries, final_index_Entries ws k,
    goSortEntries_expEntries ws 5 k (hsorted k)]
  have hloop := readAllLoop_expEntries ws (fun p hp =>
    ⟨(hper p hp).1, (hper p hp).2.1, (hper p hp).2.2.1⟩)
    (u32tob MagicNumber ++ [Version])
    ((ws.foldl writeStep NewTSMWriter).index.MarshalBinary ++
      u64tob (5 + (expBlocks ws).length)) k
  rw [length_header] at hloop
  rw [show (u32tob MagicNumber ++ [Version]) ++ expBlocks ws ++
      (ws.foldl writeStep NewTSMWriter).index.MarshalBinary ++
      u64tob (5 + (expBlocks ws).length) = (u32tob MagicNumber ++ [Version]) ++
      (expBlocks ws ++ ((ws.foldl writeStep NewTSMWriter).index.MarshalBinary ++
        u64tob (5 + (expBlocks ws).length))) from by simp [List.append_assoc]]
  exact hloop


/-! ## The claims

Each claim of the specification is settled by one theorem below, with a
closed witness instantiating every hypothesis at concrete data, and — where
the claim as written fails on the source — a closed counterexample
exhibiting the failing input. -/

unseal putUvarint unmarshalLoop scanOffsets searchLoop decodeWords

/-- Construction of the reader is blind to the five header bytes: with the
8-byte footer in range, the whole verdict of `tsmReaderInit` (and the index
it decodes) is a function of the bytes after the header alone. -/
theorem init_header_shape (pre rest : List Nat) (h5 : pre.length = 5)
    (h8 : 8 ≤ rest.length) (hv : 5 ≤ btou64 (rest.drop (rest.length - 8))) :
    Except.map tsmReader.index (tsmReaderInit (pre ++ rest)) =
      (if btou64 (rest.drop (rest.length - 8)) ≥ 2 ^ 63 then
        .error (.errMsg "init: failed to seek to index")
      else if 5 + rest.length - 8 < btou64 (rest.drop (rest.length - 8)) then
        .error (.goPanic "makeslice: len out of range")
      else
        match directIndex.UnmarshalBinary NewDirectIndex
            ((rest.drop (btou64 (rest.drop (rest.length - 8)) - 5)).take
              (5 + rest.length - 8 - btou64 (rest.drop (rest.length - 8)))) with
        | .error _ => .error (.errMsg "init: unmarshal error")
        | .ok idx => .ok idx) := by
  have hdropgen : ∀ n, 5 ≤ n → (pre ++ rest).drop n = rest.drop (n - 5) := by
    intro n hn
    have hsplit : n = pre.length + (n - 5) := by omega
    conv_lhs => rw [hsplit]
    exact List.drop_append (n - 5)
  unfold tsmReaderInit
  simp only [List.length_append, h5]
  rw [if_neg (by omega)]
  have hfoot : (pre ++ rest).drop (5 + rest.length - 8) = rest.drop (rest.length - 8) := by
    have h1 : 5 + rest.length - 8 = 5 + (rest.length - 8) := by omega
    rw [h1, hdropgen (5 + (rest.length - 8)) (by omega)]
    congr 1
    omega
  rw [hfoot, hdropgen (btou64 (rest.drop (rest.length - 8))) hv]
  by_cases hc1 : btou64 (rest.drop (rest.length - 8)) ≥ 2 ^ 63
  · rw [if_pos hc1, if_pos hc1]
    rfl
  · rw [if_neg hc1, if_neg hc1]
    by_cases hc2 : 5 + rest.length - 8 < btou64 (rest.drop (rest.length - 8))
    · rw [if_pos hc2, if_pos hc2]
      rfl
    · rw [if_neg hc2, if_neg hc2]
      cases hU : directIndex.UnmarshalBinary NewDirectIndex
          ((rest.drop (btou64 (rest.drop (rest.length - 8)) - 5)).take
            (5 + rest.length - 8 - btou64 (rest.drop (rest.length - 8)))) with
      | error e => rfl
      | ok idx => rfl

/-- C1: after any contract-respecting sequence of `Write` calls followed by
`Close`, constructing a reader over the produced bytes succeeds and
`ReadAll k` returns, for every key `k`, exactly the concatenation in write
order of the values written under `k`. -/
theorem claim_C1 (ws : List (List Nat × List Value)) (h : WContract ws) :
    ∃ w : tsmWriter, runWrites ws = .ok w ∧
      ∃ r : tsmReader, NewTSMReader w.Close.out = .ok r ∧
        ∀ k : List Nat, r.ReadAll k = .ok (valuesFor ws k) :=
  roundTrip ws h

/-- C1 witness: the three-write session `exWrites` (two `cpu` blocks around
a `mem` block) meets the contract, and the round trip holds for it. -/
theorem claim_C1_witness : WContract exWrites ∧
    (∃ w : tsmWriter, runWrites exWrites = .ok w ∧
      ∃ r : tsmReader, NewTSMReader w.Close.out = .ok r ∧
        ∀ k : List Nat, r.ReadAll k = .ok (valuesFor exWrites k)) :=
  ⟨by decide, claim_C1 exWrites (by decide)⟩

/-- C2: over every well-formed serialized index — the encoding of a record
list with in-range fields, strictly ascending keys and a size within the
indirect offsets — the direct index decoded from the bytes and the indirect
index wrapping the same bytes agree on `Entries k` for every key `k`, same
entries in the same order, and the result is `[]` for absent keys. -/
theorem claim_C2 (rs : List (List Nat × List IndexEntry)) (h : IdxWF rs)
    (key : List Nat) :
    directIndex.UnmarshalBinary NewDirectIndex (encodeIndex rs) = .ok ⟨rs⟩ ∧
    (indirectIndex.UnmarshalBinary (encodeIndex rs)).Entries key =
      .ok (directIndex.Entries ⟨rs⟩ key) ∧
    (key ∉ rs.map Prod.fst → directIndex.Entries ⟨rs⟩ key = []) := by
  obtain ⟨hwf, hs, hsize⟩ := h
  refine ⟨UnmarshalBinary_encodeIndex rs hwf (nodup_of_keysSorted rs hs),
    indirect_Entries_eq rs hwf hs key, ?_⟩
  intro hk
  apply Entries_eq_nil_of_absent
  intro j hj hkey
  exact hk (hkey ▸ List.mem_map_of_mem Prod.fst (recAt_mem rs j hj))

/-- C2 witness: the two-record index `rsEx` is well formed, and direct and
indirect agree on the present key `mem`. -/
theorem claim_C2_witness : IdxWF rsEx ∧
    (directIndex.UnmarshalBinary NewDirectIndex (encodeIndex rsEx) = .ok ⟨rsEx⟩ ∧
    (indirectIndex.UnmarshalBinary (encodeIndex rsEx)).Entries [109, 101, 109] =
      .ok (directIndex.Entries ⟨rsEx⟩ [109, 101, 109]) ∧
    ([109, 101, 109] ∉ rsEx.map Prod.fst →
      directIndex.Entries ⟨rsEx⟩ [109, 101, 109] = [])) :=
  ⟨by decide, claim_C2 rsEx (by decide) [109, 101, 109]⟩

/-- C3: refuted as stated.  Go parses the source's
`e.MinTime == t || e.MinTime < t && e.MaxTime == t || e.MaxTime > t` as
`A || (B && C) || D`, so `MaxTime > t` alone suffices: for the entry with
range `[0, 10]`, the timestamp `-1` — strictly below `MinTime` — is
reported as contained, falsifying the inclusive-bounds reading. -/
theorem claim_C3 :
    IndexEntry.Contains ⟨0, 10, 0, 0⟩ (-1) = true ∧
    ¬ ((IndexEntry.mk 0 10 0 0).MinTime ≤ -1 ∧
        (-1 : Int) ≤ (IndexEntry.mk 0 10 0 0).MaxTime) := by
  decide

/-- C4: refuted as stated.  The reader never verifies the stored block
CRC-32 (`//TODO: Validate checksum` in the source): in `exFileBadCrc` — a
valid one-block file whose first CRC byte (offset 5) was corrupted — the
stored checksum no longer matches the 26-byte block payload, yet reader
construction succeeds and `Read` decodes and returns the block's values
instead of reporting a checksum mismatch. -/
theorem claim_C4 :
    NewTSMReader exFileBadCrc = .ok (unwrapReader (NewTSMReader exFileBadCrc)) ∧
    (unwrapReader (NewTSMReader exFileBadCrc)).Read [99, 112, 117] 0 = .ok [⟨0, 1⟩] ∧
    (exFileBadCrc.drop 5).take 4 ≠ u32tob (crc32 ((exFileBadCrc.drop 9).take 26)) := by
  decide

/-- C5 counterexample: for the index `dC5`, whose single key holds two
entries inserted with descending `MinTime`, decode-of-encode returns the
entries ascending — not in insertion order — so `decode(encode(I)) = I`
fails. -/
theorem claim_C5_counterexample :
    directIndex.UnmarshalBinary NewDirectIndex dC5.MarshalBinary =
      .ok ⟨[([107], [⟨1, 1, 35, 30⟩, ⟨2, 2, 5, 30⟩])]⟩ ∧
    (⟨[([107], [⟨1, 1, 35, 30⟩, ⟨2, 2, 5, 30⟩])]⟩ : directIndex) ≠ dC5 := by
  decide

/-- C5 (amended): decoding the bytes of `MarshalBinary` yields a direct
index with the same keys (as a set) and, for each key, the same entries in
the sorted order the encoder itself establishes — `MarshalBinary` sorts
each entry list before emitting it, so insertion order is not preserved. -/
theorem claim_C5 (d : directIndex) (h : DirWF d) :
    ∃ d' : directIndex,
      directIndex.UnmarshalBinary NewDirectIndex d.MarshalBinary = .ok d' ∧
      d'.keys.Perm d.keys ∧
      ∀ k, d'.Entries k = goSortEntries (d.Entries k) := by
  refine ⟨⟨d.marshalRecords⟩, UnmarshalBinary_MarshalBinary d h, ?_, ?_⟩
  · show (d.marshalRecords.map Prod.fst).Perm d.keys
    rw [marshalRecords_keys]
    exact goSortBy_perm keyLt d.keys
  · intro k
    rw [marshalRecords_Entries_total, marshalState_Entries]

/-- C5 witness: the round trip with sorted entries, at the concrete index
`dC5`. -/
theorem claim_C5_witness : DirWF dC5 ∧
    (∃ d' : directIndex,
      directIndex.UnmarshalBinary NewDirectIndex dC5.MarshalBinary = .ok d' ∧
      d'.keys.Perm dC5.keys ∧
      ∀ k, d'.Entries k = goSortEntries (dC5.Entries k)) :=
  ⟨by decide, claim_C5 dC5 (by decide)⟩

/-- C6 counterexample: serializing `dC6` does not keep equal-`MinTime`
entries in write order.  `dC6` holds seven entries whose `Offset` fields
record their write order; the two `MinTime = 3` entries were written second
(Offset 1) and seventh (Offset 6), but `marshalRecords` emits Offset 6
before Offset 1: Go's `sort.Sort` is unstable (its gap-6 Shell pass swaps
elements six apart before the insertion sort). -/
theorem claim_C6_counterexample :
    dC6.Entries [107] =
      [⟨5, 5, 0, 0⟩, ⟨3, 3, 1, 0⟩, ⟨0, 0, 2, 0⟩, ⟨0, 0, 3, 0⟩, ⟨0, 0, 4, 0⟩,
        ⟨0, 0, 5, 0⟩, ⟨3, 3, 6, 0⟩] ∧
    dC6.marshalRecords =
      [([107], [⟨0, 0, 2, 0⟩, ⟨0, 0, 3, 0⟩, ⟨0, 0, 4, 0⟩, ⟨0, 0, 5, 0⟩,
        ⟨3, 3, 6, 0⟩, ⟨3, 3, 1, 0⟩, ⟨5, 5, 0, 0⟩])] := by
  decide

/-- C6 (amended): the serialized form lists keys in strictly ascending
lexicographic order, and each key's entries are a permutation of that key's
in-memory entries sorted ascending by `MinTime`; but the sort is Go's
unstable `sort.Sort`, so entries with equal `MinTime` appear in the order
the unstable sort produces, not necessarily their write order. -/
theorem claim_C6 (d : directIndex) (h : DirWF d) :
    d.MarshalBinary = encodeIndex d.marshalRecords ∧
    (d.marshalRecords.map Prod.fst).Pairwise (fun a b => keyLt a b = true) ∧
    ∀ p ∈ d.marshalRecords, SortedBy indexEntryLess p.2 ∧ p.2.Perm (d.Entries p.1) := by
  refine ⟨MarshalBinary_eq_encodeIndex d, ?_, ?_⟩
  · have hsorted : SortedBy keyLt (sortStrings d.keys) :=
      goSortBy_sorted (fun a b hab => keyLt_asymm hab) keyLt_negtrans d.keys
    have hnd : (sortStrings d.keys).Nodup :=
      ((goSortBy_perm keyLt d.keys).nodup_iff).mpr h.1
    rw [marshalRecords_keys]
    unfold SortedBy at hsorted
    refine (hsorted.and hnd).imp ?_
    intro a b hab
    cases hlt : keyLt a b with
    | true => rfl
    | false => exact absurd (keyLt_total a b hlt hab.1) hab.2
  · intro p hp
    unfold directIndex.marshalRecords at hp
    rcases List.mem_map.mp hp with ⟨k, hk, rfl⟩
    exact ⟨goSortBy_sorted indexEntryLess_asymm indexEntryLess_negtrans _,
      goSortBy_perm indexEntryLess (d.Entries k)⟩

/-- C6 witness: the amended serialization order, at the concrete index
`dC6`. -/
theorem claim_C6_witness : DirWF dC6 ∧
    (dC6.MarshalBinary = encodeIndex dC6.marshalRecords ∧
    (dC6.marshalRecords.map Prod.fst).Pairwise (fun a b => keyLt a b = true) ∧
    ∀ p ∈ dC6.marshalRecords, SortedBy indexEntryLess p.2 ∧
      p.2.Perm (dC6.Entries p.1)) :=
  ⟨by decide, claim_C6 dC6 (by decide)⟩

/-- C7: refuted as stated.  An empty write is not rejected by the writer
with an `EmptyBlock` error before the codec runs: the writer performs no
empty check of its own, and it is the external codec (`Values.Encode`,
whose `values[0].Value()` switch has no case to hit) that panics with
"unable to encode block type".  The call dies in a panic rather than
returning a writer error. -/
theorem claim_C7 :
    ValuesEncode [] = .error (.goPanic "unable to encode block type") ∧
    tsmWriter.Write NewTSMWriter [99, 112, 117] [] =
      .error (.goPanic "unable to encode block type") := by
  decide

/-- C8 counterexample: the writer keeps no closed state.  After `Close` on
a fresh writer (13 bytes: the 5-byte header, an empty index, the 8-byte
footer), a further `Write` succeeds and appends its 30-byte block, growing
the sink to 43 bytes, instead of failing with a `WriterClosed` error. -/
theorem claim_C8_counterexample :
    (tsmWriter.Close NewTSMWriter).Write [99] [⟨0, 1⟩] =
      .ok (writeStep (tsmWriter.Close NewTSMWriter) ([99], [⟨0, 1⟩])) ∧
    (tsmWriter.Close NewTSMWriter).out.length = 13 ∧
    (writeStep (tsmWriter.Close NewTSMWriter) ([99], [⟨0, 1⟩])).out.length = 43 := by
  decide

/-- C8 (amended): `Close` appends the index and footer but records no
closed flag, so the writer object stays fully operational: any later
nonempty `Write` succeeds, behaving exactly as before the close and growing
the output by the block's `(diskBlock vs).length` bytes. -/
theorem claim_C8 (w : tsmWriter) (key : List Nat) (vs : List Value) (h : vs ≠ []) :
    w.Close.Write key vs = .ok (writeStep w.Close (key, vs)) ∧
    (writeStep w.Close (key, vs)).out.length =
      w.Close.out.length + (diskBlock vs).length := by
  refine ⟨Write_eq_writeStep w.Close key vs h, ?_⟩
  show (w.Close.out ++ diskBlock vs).length = _
  rw [List.length_append]

/-- C8 witness: a `Write` after `Close` on the fresh writer, with one
value. -/
theorem claim_C8_witness : ([⟨0, 1⟩] : List Value) ≠ [] ∧
    ((tsmWriter.Close NewTSMWriter).Write [99, 112, 117] [⟨0, 1⟩] =
      .ok (writeStep (tsmWriter.Close NewTSMWriter) ([99, 112, 117], [⟨0, 1⟩])) ∧
    (writeStep (tsmWriter.Close NewTSMWriter) ([99, 112, 117], [⟨0, 1⟩])).out.length =
      (tsmWriter.Close NewTSMWriter).out.length + (diskBlock [⟨0, 1⟩]).length) :=
  ⟨by decide, claim_C8 NewTSMWriter [99, 112, 117] [⟨0, 1⟩] (by decide)⟩

/-- C9 counterexample: `exFileBadMagic` is a writer-produced file whose
first byte was zeroed, so its first four bytes are not the magic constant;
yet reader construction succeeds — no `BadMagic` or version check exists
anywhere in the reader — and the reader serves `ReadAll` normally. -/
theorem claim_C9_counterexample :
    exFileBadMagic.take 4 ≠ u32tob MagicNumber ∧
    NewTSMReader exFileBadMagic = .ok (unwrapReader (NewTSMReader exFileBadMagic)) ∧
    (unwrapReader (NewTSMReader exFileBadMagic)).ReadAll [99, 112, 117] =
      .ok [⟨0, 1⟩] := by
  decide

/-- C9 (amended): the reader inspects no header byte at all: construction
reads only the 8-byte footer and the index slice, so replacing the five
header bytes by any other five bytes leaves the construction verdict and
the decoded index unchanged (stated for sources whose index pointer lies at
or beyond the header, which every writer-produced file satisfies). -/
theorem claim_C9 (pre pre' rest : List Nat) (h5 : pre.length = 5)
    (h5' : pre'.length = 5) (h8 : 8 ≤ rest.length)
    (hv : 5 ≤ btou64 (rest.drop (rest.length - 8))) :
    Except.map tsmReader.index (tsmReaderInit (pre ++ rest)) =
      Except.map tsmReader.index (tsmReaderInit (pre' ++ rest)) :=
  (init_header_shape pre rest h5 h8 hv).trans
    (init_header_shape pre' rest h5' h8 hv).symm

/-- C9 witness: the true header against five zero bytes, over the body of
the writer-produced file `exFile`. -/
theorem claim_C9_witness :
    ((u32tob MagicNumber ++ [Version] : List Nat).length = 5 ∧
      ([0, 0, 0, 0, 0] : List Nat).length = 5 ∧ 8 ≤ (exFile.drop 5).length ∧
      5 ≤ btou64 ((exFile.drop 5).drop ((exFile.drop 5).length - 8))) ∧
    Except.map tsmReader.index
        (tsmReaderInit ((u32tob MagicNumber ++ [Version]) ++ exFile.drop 5)) =
      Except.map tsmReader.index (tsmReaderInit ([0, 0, 0, 0, 0] ++ exFile.drop 5)) :=
  ⟨⟨by decide, by decide, by decide, by decide⟩,
    claim_C9 (u32tob MagicNumber ++ [Version]) [0, 0, 0, 0, 0] (exFile.drop 5)
      (by decide) (by decide) (by decide) (by decide)⟩

/-- C10: `MarshalBinary` is not observation-free.  Modelling the call as
`MarshalBinaryS` — the returned bytes paired with the index state after the
call's in-place `sort.Sort` of each shared entry slice — every key whose
entries were added out of `MinTime` order answers `Entries` differently
after the call: the sorted list, no longer the insertion order. -/
theorem claim_C10 (d : directIndex) (k : List Nat)
    (h : ¬ SortedBy indexEntryLess (d.Entries k)) :
    (d.MarshalBinaryS).2.Entries k = goSortEntries (d.Entries k) ∧
    SortedBy indexEntryLess ((d.MarshalBinaryS).2.Entries k) ∧
    (d.MarshalBinaryS).2.Entries k ≠ d.Entries k := by
  have h1 : (d.MarshalBinaryS).2.Entries k = goSortEntries (d.Entries k) :=
    marshalState_Entries d k
  have h2 : SortedBy indexEntryLess (goSortEntries (d.Entries k)) :=
    goSortBy_sorted indexEntryLess_asymm indexEntryLess_negtrans (d.Entries k)
  refine ⟨h1, h1 ▸ h2, ?_⟩
  intro he
  rw [he] at h1
  rw [h1] at h
  exact h h2

/-- C10 witness: the index `dC5`, whose entries for key `k` are out of
order, answers `Entries` with the sorted list after `MarshalBinaryS`. -/
theorem claim_C10_witness :
    ¬ SortedBy indexEntryLess (dC5.Entries [107]) ∧
    ((dC5.MarshalBinaryS).2.Entries [107] = goSortEntries (dC5.Entries [107]) ∧
    SortedBy indexEntryLess ((dC5.MarshalBinaryS).2.Entries [107]) ∧
    (dC5.MarshalBinaryS).2.Entries [107] ≠ dC5.Entries [107]) :=
  ⟨by decide, claim_C10 dC5 [107] (by decide)⟩

end Tsm1
